import Mathlib

/-!
Verification development for the semantic-transformer executor/verifier pair.

The Rust sources (`qe.rs`, `geom.rs`, `boolfun.rs`, `semtrace.rs`, `digest.rs`,
`exec.rs`, `verify.rs`) are shallowly embedded below.  Machine integers are
modelled by `Int`/`Nat`: every arithmetic operation performed by the program on
reachable values stays far below the `i32`/`i64`/`u64` bounds (numerators and
denominators are bounded by 200, triangle sides by 20, cross products by
200·200·2), so the unbounded model agrees with the wrapped one.  SHA-256 is an
external library call; it is modelled as a free constructor algebra (`Digest`),
i.e. a collision-free hash: distinct preimages give distinct digests and the
executor/verifier comparisons depend only on the hash being a function of its
input.  Rust's stable `sort_by` is modelled by a stable insertion sort
(`insSort`): a stable sort's output is uniquely determined by the comparator
and the input order, so the choice of algorithm is immaterial.
-/

namespace SemT

/-- Generic stable insertion of `a` into `l`, placing `a` before the first
element `b` with `le a b`.  Model of the stable `sort_by` of the Rust
standard library (see header note). -/
def ordInsert (le : α → α → Bool) (a : α) : List α → List α
  | [] => [a]
  | b :: l => if le a b then a :: b :: l else b :: ordInsert le a l

/-- Stable insertion sort; model of `Vec::sort_by`. -/
def insSort (le : α → α → Bool) : List α → List α
  | [] => []
  | a :: l => ordInsert le a (insSort le l)

/-! ## qe.rs -/

/-- `qe.rs` `Frac`: signed numerator and denominator (`i32` in the source). -/
structure Frac where
  num : Int
  den : Int
deriving DecidableEq, Repr

/-- The Euclid loop of `qe.rs` `gcd` (`while b != 0 { r = a % b; a = b; b = r }`),
with explicit fuel; `fuel > b` always suffices since `b` strictly decreases. -/
def gcdLoop : Nat → Nat → Nat → Nat
  | 0, a, _ => a
  | f + 1, a, b => if b = 0 then a else gcdLoop f b (a % b)

/-- `qe.rs` `gcd`: absolute values, Euclid loop, and `0 ↦ 1` at the end. -/
def rust_gcd (a b : Int) : Nat :=
  let g := gcdLoop (b.natAbs + 1) a.natAbs b.natAbs
  if g = 0 then 1 else g

/-- `qe.rs` `Frac::new_reduced`: normalize the sign onto the numerator and
divide by the gcd.  (`Int.tdiv` is the truncated division of Rust; both
divisions are exact.)  The source `assert!(den != 0)` is never hit: every
caller has already excluded a zero denominator. -/
def Frac.new_reduced (num den : Int) : Frac :=
  let n := if den < 0 then -num else num
  let d := if den < 0 then -den else den
  let g : Int := rust_gcd n d
  ⟨n.tdiv g, d.tdiv g⟩

/-- `qe.rs` `Frac::cmp_value`: exact value comparison by cross-multiplication
(widened to `i64` in the source). -/
def Frac.cmp_value (a b : Frac) : Ordering :=
  compare (a.num * b.den) (b.num * a.den)

/-- `qe.rs` `Frac::abs_num`. -/
def Frac.abs_num (f : Frac) : Int := |f.num|

/-- `qe.rs` `canonical_cmp`: value, then |numerator|, then denominator, then
signed numerator. -/
def canonical_cmp (a b : Frac) : Ordering :=
  (a.cmp_value b).then
    ((compare a.abs_num b.abs_num).then
      ((compare a.den b.den).then (compare a.num b.num)))

/-- Boolean form of `canonical_cmp` used when modelling `sort_by(canonical_cmp)`. -/
def canonLe (a b : Frac) : Bool := (canonical_cmp a b).isLE

/-- `qe.rs` `build_qe`: all reductions of `num/den` for `den ∈ [1,200]`,
`num ∈ [-200,200]`.  The `BTreeSet<(i32,i32)>` is modelled by `List.dedup`
(the set of pairs); the subsequent `sort_by(canonical_cmp)` fixes the final
order, which is independent of the pre-sort order because `canonical_cmp`
returns `.eq` only on structurally equal pairs. -/
def build_qe_raw : List Frac :=
  (List.range 200).flatMap (fun (di : Nat) =>
    (List.range 401).map (fun (ni : Nat) =>
      Frac.new_reduced ((ni : Int) - 200) ((di : Int) + 1)))

def build_qe : List Frac := insSort canonLe build_qe_raw.dedup

/-! String primitives are modelled structurally on the character list
(`String.data`), mirroring the `str` operations the source applies: `trim`,
one-character `split`, prefix tests and integer parsing.  The inputs that occur
are ASCII, so `trim` strips the four ASCII whitespace characters. -/

def isWs (c : Char) : Bool := c = ' ' ∨ c = '\t' ∨ c = '\n' ∨ c = '\r'

/-- `str::trim` on the character list. -/
def trimChars (l : List Char) : List Char :=
  ((l.dropWhile isWs).reverse.dropWhile isWs).reverse

/-- `str::split(c)` for a one-character separator, on the character list. -/
def splitOnChar (c : Char) : List Char → List (List Char)
  | [] => [[]]
  | x :: xs =>
    let r := splitOnChar c xs
    if x = c then [] :: r
    else match r with
      | [] => [[x]]
      | h :: t => (x :: h) :: t

/-- Decimal digit value. -/
def digitVal? (c : Char) : Option Nat :=
  if 48 ≤ c.toNat ∧ c.toNat ≤ 57 then some (c.toNat - 48) else none

/-- The digit run of `from_str`: nonempty, all decimal digits. -/
def decToNat? (l : List Char) : Option Nat :=
  if l.isEmpty then none
  else
    l.foldl (fun acc c =>
      match acc, digitVal? c with
      | some a, some d => some (a * 10 + d)
      | _, _ => none) (some 0)

/-- `i32::from_str` (and kin): an optional single leading sign, then a
nonempty digit run. -/
def parseInt? (l : List Char) : Option Int :=
  match l with
  | '-' :: rest => (decToNat? rest).map (fun n => -(n : Int))
  | '+' :: rest => (decToNat? rest).map (fun n => (n : Int))
  | _ => (decToNat? l).map (fun n => (n : Int))

/-- `qe.rs` `parse_frac`: split on `/`, parse both sides, reject `den = 0`. -/
def parse_frac (s : String) : Option Frac :=
  match splitOnChar '/' (trimChars s.data) with
  | [p0, p1] =>
    match parseInt? p0, parseInt? p1 with
    | some num, some den => if den = 0 then none else some (Frac.new_reduced num den)
    | _, _ => none
  | _ => none

/-! ## geom.rs -/

/-- `geom.rs` `Tri`: sides stored sorted `a ≤ b ≤ c`. -/
structure Tri where
  a : Int
  b : Int
  c : Int
deriving DecidableEq, Repr

/-- `geom.rs` `Tri::new`: positivity, the three-swap sort, triangle inequality. -/
def Tri.new (a0 b0 c0 : Int) : Option Tri :=
  if a0 ≤ 0 ∨ b0 ≤ 0 ∨ c0 ≤ 0 then none
  else
    let p1 := if a0 > b0 then (b0, a0) else (a0, b0)
    let p2 := if p1.2 > c0 then (c0, p1.2) else (p1.2, c0)
    let p3 := if p1.1 > p2.1 then (p2.1, p1.1) else (p1.1, p2.1)
    if p3.1 + p3.2 ≤ p2.2 then none else some ⟨p3.1, p3.2, p2.2⟩

def Tri.perimeter (t : Tri) : Int := t.a + t.b + t.c

def Tri.is_isosceles (t : Tri) : Bool := t.a = t.b ∨ t.b = t.c

def Tri.is_equilateral (t : Tri) : Bool := t.a = t.b ∧ t.b = t.c

/-- `geom.rs` `gcd` (its own copy: `abs` applied to the final value; identical
to `rust_gcd` on the positive side lengths it is applied to). -/
def geom_gcd (a b : Int) : Int :=
  let g := gcdLoop (b.natAbs + 1) a.natAbs b.natAbs
  if g = 0 then 1 else (g : Int)

def Tri.is_primitive (t : Tri) : Bool := geom_gcd (geom_gcd t.a t.b) t.c = 1

/-- `geom.rs` `Tri::angle_type`: compare `a² + b²` with `c²`. -/
def Tri.angle_type (t : Tri) : Ordering :=
  compare (t.a * t.a + t.b * t.b) (t.c * t.c)

/-- `geom.rs` `canonical_cmp`: perimeter, then `a`, `b`, `c`. -/
def geom_canonical_cmp (x y : Tri) : Ordering :=
  (compare x.perimeter y.perimeter).then
    ((compare x.a y.a).then ((compare x.b y.b).then (compare x.c y.c)))

def geomLe (x y : Tri) : Bool := (geom_canonical_cmp x y).isLE

/-- `geom.rs` `build_ge`: the nested loops `a in 1..=m, b in a..=m, c in b..=m`
are modelled by filtering `a ≤ b ≤ c` over the full cube, which enumerates
exactly the same triples. -/
def build_ge (m : Nat) : List Tri :=
  let raw := (List.range m).flatMap (fun (ai : Nat) =>
    (List.range m).flatMap (fun (bi : Nat) =>
      (List.range m).flatMap (fun (ci : Nat) =>
        let a := ((ai : Int)) + 1
        let b := ((bi : Int)) + 1
        let c := ((ci : Int)) + 1
        if a ≤ b ∧ b ≤ c then (Tri.new a b c).toList else [])))
  insSort geomLe raw

/-! ## boolfun.rs -/

/-- `boolfun.rs` `BoolFun`: arity `n` (`u8`) and packed truth table (`u64`). -/
structure BoolFun where
  n : Nat
  bits : Nat
deriving DecidableEq, Repr

/-- `boolfun.rs` `rows`: `2^n`. -/
def BoolFun.rows (f : BoolFun) : Nat := 1 <<< f.n

/-- `boolfun.rs` `mask`: low `2^n` bits.  (Both branches of the source equal
`2^rows - 1` for `rows ≤ 64`; the `u64::MAX` special case only avoids the
Rust shift-overflow panic.) -/
def BoolFun.mask (f : BoolFun) : Nat :=
  if f.rows = 64 then 2 ^ 64 - 1 else (1 <<< f.rows) - 1

/-- `count_ones` on a `u64`, 64 explicit bit steps. -/
def popcount : Nat → Nat → Nat
  | 0, _ => 0
  | f + 1, x => x % 2 + popcount f (x / 2)

/-- `boolfun.rs` `weight`. -/
def BoolFun.weight (f : BoolFun) : Nat := popcount 64 (f.bits &&& f.mask)

/-- `boolfun.rs` `hamming`: `u32::MAX` sentinel on arity mismatch. -/
def BoolFun.hamming (f g : BoolFun) : Nat :=
  if f.n ≠ g.n then 4294967295
  else popcount 64 ((f.bits ^^^ g.bits) &&& f.mask)

/-- `boolfun.rs` `canonical_cmp`: `n` ascending, then `bits` ascending. -/
def boolfun_canonical_cmp (x y : BoolFun) : Ordering :=
  (compare x.n y.n).then (compare x.bits y.bits)

def bfLe (x y : BoolFun) : Bool := (boolfun_canonical_cmp x y).isLE

/-- `boolfun.rs` `build_boolfun`: all `total` truth tables for arity `n`.
The source `assert!(rows <= 64)` aborts the process; the executor/verifier
embeddings guard on the same condition before calling this. -/
def build_boolfun (n : Nat) : List BoolFun :=
  let rows := 1 <<< n
  let total := if rows = 64 then 2 ^ 64 - 1 else 1 <<< rows
  insSort bfLe ((List.range total).map (fun bits => BoolFun.mk n bits))

/-- Hexadecimal digit value, as accepted by `u64::from_str_radix(_, 16)`. -/
def hexDigit (c : Char) : Option Nat :=
  if c.toNat ≥ 48 ∧ c.toNat ≤ 57 then some (c.toNat - 48)
  else if c.toNat ≥ 97 ∧ c.toNat ≤ 102 then some (c.toNat - 97 + 10)
  else if c.toNat ≥ 65 ∧ c.toNat ≤ 70 then some (c.toNat - 65 + 10)
  else none

/-- `u64::from_str_radix(s, 16)`: nonempty all-hex-digit strings. -/
def hexToNat? (l : List Char) : Option Nat :=
  if l.isEmpty then none
  else
    l.foldl (fun acc c =>
      match acc, hexDigit c with
      | some a, some d => some (a * 16 + d)
      | _, _ => none) (some 0)

/-- Base-2 logarithm with explicit fuel (the lengths that reach it are at most
64, far below the fuel). -/
def log2f : Nat → Nat → Nat
  | 0, _ => 0
  | f + 1, n => if n ≥ 2 then log2f f (n / 2) + 1 else 0

/-- `boolfun.rs` `parse_elem`: `0xHHHH` (n = 4), `u16:D` (n = 4), or
`bin:0101…` with power-of-two length.  The source computes `n` as
`(len as f64).log2() as u8` and re-checks `1 << n == len`, which for the
power-of-two lengths accepted here is exactly the integer base-2 logarithm. -/
def parse_elem (s : String) : Option BoolFun :=
  let t := trimChars s.data
  if ("0x".data.isPrefixOf t) ∨ ("0X".data.isPrefixOf t) then
    match hexToNat? (trimChars (t.drop 2)) with
    | some bits => some ⟨4, bits &&& 65535⟩
    | none => none
  else if ("u16:".data.isPrefixOf t) then
    match decToNat? (trimChars (t.drop 4)) with
    | some bits => some ⟨4, bits &&& 65535⟩
    | none => none
  else if ("bin:".data.isPrefixOf t) then
    let b := trimChars (t.drop 4)
    if b.isEmpty then none
    else if !(b.all (fun c => c = '0' ∨ c = '1')) then none
    else
      let len := b.length
      if len = 0 ∨ (len &&& (len - 1)) ≠ 0 then none
      else
        let n := log2f 64 len
        if (1 <<< n) ≠ len then none
        else if len > 64 then none
        else some ⟨n, b.foldl (fun bits c => bits * 2 + (if c = '1' then 1 else 0)) 0⟩
  else none

/-! ## semtrace.rs -/

/-- `semtrace.rs` `sig7`: the seven QE predicate bits.  Bit 1 (`rat_int`) is
the constant `true` of the source. -/
def sig7 (f : Frac) : Nat :=
  (if f.num > 0 then 1 else 0) |||
  (if True then 2 else 0) |||
  (if f.den ≤ 6 then 4 else 0) |||
  (if f.num % 2 = 0 then 8 else 0) |||
  (if f.den % 3 = 0 then 16 else 0) |||
  (if |f.num| < f.den then 32 else 0) |||
  (if |f.num| ≤ 5 then 64 else 0)

/-- `semtrace.rs` `sig7_geom`: the seven triangle predicate bits. -/
def sig7_geom (t : Tri) : Nat :=
  (if t.perimeter ≤ 20 then 1 else 0) |||
  (if t.is_isosceles then 2 else 0) |||
  (if t.is_equilateral then 4 else 0) |||
  (if t.is_primitive then 8 else 0) |||
  (if t.angle_type = Ordering.eq then 16 else 0) |||
  (if t.angle_type = Ordering.gt then 32 else 0) |||
  (if t.angle_type = Ordering.lt then 64 else 0)

/-- `semtrace.rs` `Constraint`: a `(mask, value)` pair of `u8`s. -/
structure Constraint where
  mask : Nat
  value : Nat
deriving DecidableEq, Repr

def Constraint.empty : Constraint := ⟨0, 0⟩

/-- `semtrace.rs` `Constraint::set_bit`.  The shift amount is reduced mod 8 as
in a release build of the source (`1u8 << i`); every executed trace uses
`i ≤ 6`.  `!bit` on a `u8` is `255 ^^^ bit`. -/
def Constraint.set_bit (c : Constraint) (i b : Nat) : Constraint :=
  let bit := 1 <<< (i % 8)
  { mask := c.mask ||| bit,
    value := if b = 1 then c.value ||| bit else c.value &&& (255 ^^^ bit) }

/-- `semtrace.rs` `Constraint::matches`. -/
def Constraint.matches (c : Constraint) (sig : Nat) : Bool :=
  (sig &&& c.mask) = (c.value &&& c.mask)

/-! ## exec.rs / verify.rs: ops and records

`parse_op_to_semtrace` maps a proposer line to an op name with a typed
argument object; the `Op` type below is that parsed form (the claims under
verification quantify over op lists, and a parse failure aborts the whole run
before any step executes). -/

/-- The op algebra shared by `exec.rs` and `verify.rs` (op name plus the
fields of the `args` JSON object). -/
inductive Op where
  | START_ELEM (elem : String)
  | SET_BIT (i b : Nat)
  | SELECT_UNIVERSE (univ : String) (n : Nat)
  | FILTER_WEIGHT (min max : Nat)
  | TOPK (target_elem : String) (k : Nat)
  | WITNESS_NEAREST (target_elem : String) (metric : String)
  | RETURN_SET (max_items : Nat) (include_witness : Bool)
deriving DecidableEq, Repr

/-! ## digest.rs

SHA-256 is external library code; it is modelled as a free (collision-free)
constructor algebra.  `Digest.empty` is `sha256("")`; `leafFrac`/`leafBF` are
the leaf hashes of the 8-byte / 9-byte canonical encodings (both encodings are
injective on the value ranges that occur); `node` is the inner Merkle hash of
`left ‖ right`; `step` is the step digest of the canonical JSON object
`{pre, op, args, post}` (the fixed key order makes it an injective function of
the chain value, the op with its args, and the post set digest). -/
inductive Digest where
  | empty
  | leafFrac (f : Frac)
  | leafBF (f : BoolFun)
  | node (l r : Digest)
  | step (pre : Digest) (op : Op) (post : Digest)
deriving DecidableEq, Repr

/-- One pairing level of `digest.rs` `merkle_root`; an odd trailing leaf is
paired with itself. -/
def merkleLevel : List Digest → List Digest
  | [] => []
  | [x] => [Digest.node x x]
  | x :: y :: rest => Digest.node x y :: merkleLevel rest

/-- The `while level.len() > 1` loop, with fuel (each level at least halves,
so `len` levels always suffice). -/
def merkleLoop : Nat → List Digest → Digest
  | 0, l => l.headD Digest.empty
  | f + 1, l => if l.length ≤ 1 then l.headD Digest.empty else merkleLoop f (merkleLevel l)

/-- `digest.rs` `merkle_root`: binary, bottom-up, duplicate-last; the root of
an empty leaf list is `sha256("")`. -/
def merkle_root (leaves : List Digest) : Digest :=
  if leaves.isEmpty then Digest.empty else merkleLoop leaves.length leaves

/-- `exec.rs`/`verify.rs` `canonical_set_digest`: Merkle root of the per-element
leaf hashes in list order. -/
def canonical_set_digest (set : List Frac) : Digest :=
  merkle_root (set.map Digest.leafFrac)

/-- `exec.rs`/`verify.rs` `canonical_set_digest_boolfun`. -/
def canonical_set_digest_boolfun (set : List BoolFun) : Digest :=
  merkle_root (set.map Digest.leafBF)

/-- `exec.rs`/`verify.rs` `step_digest`: hash of the canonical JSON object
`{pre: hex(prev_chain), op, args, post: hex(post_set_digest)}`. -/
def step_digest (pre_chain : Digest) (op : Op) (post_set : Digest) : Digest :=
  Digest.step pre_chain op post_set

/-- Rendered witness strings: `"num/den"` (`frac_to_string`), `"0xHHHH"` /
`"u64:D"` (`boolfun_to_string`), or an arbitrary other string. -/
inductive WitStr where
  | fracStr (num den : Int)
  | hex4 (bits : Nat)
  | u64s (bits : Nat)
  | other (s : String)
deriving DecidableEq, Repr

/-- `exec.rs`/`verify.rs` `frac_to_string`. -/
def frac_to_string (f : Frac) : WitStr := WitStr.fracStr f.num f.den

/-- `exec.rs`/`verify.rs` `boolfun_to_string`: hex form for `n = 4`, decimal
`u64:` form otherwise. -/
def boolfun_to_string (f : BoolFun) : WitStr :=
  if f.n = 4 then WitStr.hex4 (f.bits &&& 65535) else WitStr.u64s f.bits

/-- `exec.rs` `StepPre` (the verifier deserializes but never reads it). -/
structure StepPre where
  set_digest : Option Digest
  count : Nat
  constraint_mask : Nat
  constraint_value : Nat
deriving DecidableEq, Repr

/-- `exec.rs`/`verify.rs` `StepPost`.  `set_digest` is the hex string of the
record; comparing it with `hex32(d)` after `unwrap_or_default()` is equivalent
to comparing with `some d`, since the empty default string never equals a
64-character digest rendering. -/
structure StepPost where
  set_digest : Option Digest
  count : Nat
  witness : Option WitStr
deriving DecidableEq, Repr

/-- One line of the `trace.ndjson` transcript (`StepRec`); `op` carries the
`op`/`args` fields together. -/
structure StepRec where
  step : Nat
  op : Op
  pre : StepPre
  post : StepPost
  step_digest : Digest
deriving DecidableEq, Repr

/-- The mutable state of `run_trace_and_write` (and the verifier's shadow
copy).  The `RETURN_SET` presentation parameters (`want_max_items`,
`want_include_witness`) only shape the final summary artifact and are omitted;
with them gone the `RETURN_SET` arm leaves the state unchanged in both roles. -/
structure St where
  boolfun_all : List BoolFun
  boolfun_set : List BoolFun
  boolfun_n : Nat
  is_boolfun : Bool
  state_set : List Frac
  cst : Constraint
  set_digest : Digest
  witness : Option Frac
  witness_bf : Option BoolFun
  is_ge : Bool
  chain : Digest
deriving DecidableEq, Repr

/-- The initial state of both roles: empty sets, empty constraint, digest and
chain seeded with `sha256("")`. -/
def initSt : St :=
  { boolfun_all := [], boolfun_set := [], boolfun_n := 0, is_boolfun := false,
    state_set := [], cst := Constraint.empty, set_digest := Digest.empty,
    witness := none, witness_bf := none, is_ge := false, chain := Digest.empty }

/-- `exec.rs` universe constants: `build_qe()` and `build_ge(20)`, built once
per run. -/
def qe : List Frac := build_qe

def ge_state : List Tri := build_ge 20

/-- `exec.rs`/`verify.rs` `filter_qe`: keep the signature matches, then sort
canonically. -/
def filter_qe (q : List Frac) (cst : Constraint) : List Frac :=
  insSort canonLe (q.filter (fun f => cst.matches (sig7 f)))

/-- `exec.rs`/`verify.rs` `distance_num_den`: the exact distance pair
`(|ad − bc|, bd)`. -/
def distance_num_den (target cand : Frac) : Int × Int :=
  (|target.num * cand.den - target.den * cand.num|, target.den * cand.den)

/-- `exec.rs`/`verify.rs` `dist_lt`: strict cross-multiplied comparison of
distance pairs. -/
def dist_lt (x y : Int × Int) : Bool := x.1 * y.2 < y.1 * x.2

/-- Rust tuple order on `(|num|, den)` used in the witness tie-break. -/
def tupLt (x y : Int × Int) : Bool := x.1 < y.1 ∨ (x.1 = y.1 ∧ x.2 < y.2)

/-- The scan body of `witness_nearest`. -/
def wnStep (target : Frac) (acc : Frac × (Int × Int)) (f : Frac) : Frac × (Int × Int) :=
  let d := distance_num_den target f
  let better := dist_lt d acc.2
    || (d = acc.2 ∧ tupLt (|f.num|, f.den) (|acc.1.num|, acc.1.den))
    || (d = acc.2 ∧ (|f.num|, f.den) = (|acc.1.num|, acc.1.den)
        ∧ canonical_cmp f acc.1 = Ordering.lt)
  if better then (f, d) else acc

/-- `exec.rs`/`verify.rs` `witness_nearest`: scan from the head keeping the
current best under `wnStep`. -/
def witness_nearest (set : List Frac) (target : Frac) : Option Frac :=
  match set with
  | [] => none
  | b :: rest => some (rest.foldl (wnStep target) (b, distance_num_den target b)).1

/-- The set of universe names (after ASCII upper-casing) that `exec.rs` and
`verify.rs` accept for the BoolFun universe (the distinct disjuncts of the
source's spelling list). -/
def is_boolfun_name (u : String) : Bool :=
  u == "BOOLFUN" || u == "BOOLFUN<N>" || u == "BOOLFUN4" || u == "BOOLFUN_4" ||
  u == "BOOLFUNV0" || u == "BOOLFUNV1" || u == "BOOLFUNS" || u == "BOOLFUNS<N>" ||
  u == "BOOLFUNS4" || u == "BOOLFUNS_4" || u == "BOOLFUNS_V0" || u == "BOOLFUNS_V1"

/-- `str::to_ascii_uppercase`. -/
def ascii_upper (s : String) : String := ⟨s.data.map Char.toUpper⟩

/-- Parse the three comma-separated sides of a triangle element exactly as the
`START_ELEM` arms do: split on `,`, trim, drop empties, require three parts. -/
def tri_parts (s : String) : List (List Char) :=
  ((splitOnChar ',' s.data).map trimChars).filter (fun p => !p.isEmpty)

/-- `exec.rs` `run_trace_and_write`, state transition of one op (the `match`
on the op name inside the step loop); `none` is the `Err(_)`/`?` path that
aborts the whole run.  `SELECT_UNIVERSE` additionally guards the
`assert!(rows <= 64)` of `build_boolfun`, which aborts the process in the
source. -/
def execOp (s : St) (op : Op) : Option St :=
  match op with
  | Op.SELECT_UNIVERSE u n =>
    let u_norm := ascii_upper u
    if !is_boolfun_name u_norm then none
    else if 1 <<< n > 64 then none
    else
      let all := build_boolfun n
      let bset := insSort bfLe all
      some { s with is_boolfun := true, is_ge := false, cst := Constraint.empty,
                    state_set := [], witness := none,
                    boolfun_n := n, boolfun_all := all, boolfun_set := bset,
                    set_digest := canonical_set_digest_boolfun bset, witness_bf := none }
  | Op.FILTER_WEIGHT mn mx =>
    if !s.is_boolfun then none
    else
      let out := insSort bfLe (s.boolfun_all.filter (fun f => mn ≤ f.weight ∧ f.weight ≤ mx))
      some { s with boolfun_set := out,
                    set_digest := canonical_set_digest_boolfun out, witness_bf := none }
  | Op.TOPK target_s k =>
    if !s.is_boolfun then none
    else
      match parse_elem target_s with
      | none => none
      | some target =>
        if target.n ≠ s.boolfun_n then none
        else
          let scored := s.boolfun_set.map (fun f => (f.hamming target, f))
          let sorted := insSort
            (fun x y => ((compare x.1 y.1).then (boolfun_canonical_cmp x.2 y.2)).isLE) scored
          let top := sorted.take (min k sorted.length)
          some { s with witness_bf := (top.head?).map (fun p => p.2) }
  | Op.START_ELEM elem =>
    let ge := elem.data.contains ','
    if ge then
      match tri_parts elem with
      | [pa, pb, pc] =>
        match parseInt? pa, parseInt? pb, parseInt? pc with
        | some a, some b, some c =>
          match Tri.new a b c with
          | none => none
          | some _ =>
            let tris := insSort geomLe ge_state
            let v := insSort canonLe (tris.map (fun t => Frac.mk t.a t.c))
            some { s with is_ge := true, cst := Constraint.empty, state_set := v,
                          set_digest := canonical_set_digest v,
                          witness := some (Frac.mk a c) }
        | _, _, _ => none
      | _ => none
    else
      match parse_frac elem with
      | none => none
      | some f =>
        some { s with is_ge := false, cst := Constraint.empty, state_set := qe,
                      set_digest := canonical_set_digest qe, witness := some f }
  | Op.SET_BIT i b =>
    let cst := s.cst.set_bit i b
    let v :=
      if s.is_ge then
        let tris := insSort geomLe (ge_state.filter (fun t => cst.matches (sig7_geom t)))
        insSort canonLe (tris.map (fun t => Frac.mk t.a t.c))
      else filter_qe qe cst
    some { s with cst := cst, state_set := v, set_digest := canonical_set_digest v }
  | Op.WITNESS_NEAREST target metric =>
    if metric ≠ "ABS_DIFF" then none
    else
      let tOpt : Option Frac :=
        if s.is_ge ∨ target.data.contains ',' then
          match tri_parts target with
          | [pa, pb, pc] =>
            match parseInt? pa, parseInt? pb, parseInt? pc with
            | some a, some b, some c =>
              match Tri.new a b c with
              | none => none
              | some _ => some (Frac.mk a c)
            | _, _, _ => none
          | _ => none
        else parse_frac target
      match tOpt with
      | none => none
      | some t =>
        match witness_nearest s.state_set t with
        | none => none
        | some w => some { s with witness := some w }
  | Op.RETURN_SET _ _ => some s

/-- `exec.rs` step loop body: snapshot `pre`, apply the op, snapshot `post`,
chain the step digest, emit the record. -/
def execStep (idx : Nat) (s : St) (op : Op) : Option (St × StepRec) :=
  let pre : StepPre :=
    { set_digest :=
        if idx = 0 ∧ ((s.is_boolfun ∧ s.boolfun_set = []) ∨ (!s.is_boolfun ∧ s.state_set = []))
        then none else some s.set_digest,
      count := if s.is_boolfun then s.boolfun_set.length else s.state_set.length,
      constraint_mask := s.cst.mask, constraint_value := s.cst.value }
  match execOp s op with
  | none => none
  | some s1 =>
    let post : StepPost :=
      { set_digest := some s1.set_digest,
        count := if s1.is_boolfun then s1.boolfun_set.length else s1.state_set.length,
        witness := if s1.is_boolfun then s1.witness_bf.map boolfun_to_string
                   else s1.witness.map frac_to_string }
    let sd := step_digest s.chain op s1.set_digest
    some ({ s1 with chain := sd },
          { step := idx, op := op, pre := pre, post := post, step_digest := sd })

/-- The `for (step_idx, raw_op)` loop of `run_trace_and_write`: records in
emission order plus the final state. -/
def runLoop (idx : Nat) (s : St) : List Op → Option (List StepRec × St)
  | [] => some ([], s)
  | op :: rest =>
    match execStep idx s op with
    | none => none
    | some (s1, rec) =>
      match runLoop (idx + 1) s1 rest with
      | none => none
      | some (recs, fin) => some (rec :: recs, fin)

/-- The `SET_BIT` side condition as a proposition on the post-state. -/
def setBitNonEmpty (op : Op) (s1 : St) : Prop :=
  match op with
  | Op.SET_BIT _ _ => s1.state_set ≠ []
  | _ => True

/-- The side condition of the chain-equivalence claim at one step: a `SET_BIT`
must have left the candidate set non-empty. -/
def strictOk (op : Op) (s1 : St) : Bool :=
  match op with
  | Op.SET_BIT _ _ => !s1.state_set.isEmpty
  | _ => true

/-- `runLoop` restricted by the side condition of the chain-equivalence claim:
every `SET_BIT` must leave `state_set` non-empty. -/
def runLoopStrict (idx : Nat) (s : St) : List Op → Option (List StepRec × St)
  | [] => some ([], s)
  | op :: rest =>
    match execStep idx s op with
    | none => none
    | some (s1, rec) =>
      if strictOk op s1 then
        match runLoopStrict (idx + 1) s1 rest with
        | none => none
        | some (recs, fin) => some (rec :: recs, fin)
      else none

/-! ## verify.rs -/

/-- Outcome of one verifier action: `err` is an `Err(anyhow!…)` (propagated to
the caller), `invalid` is an early `return Ok(false)`, `next` continues. -/
inductive VOut where
  | err
  | invalid
  | next (s : St)
deriving DecidableEq, Repr

/-- `verify.rs` `verify_trace_ndjson`, state transition for one record's op
(the `match rec.op` block).  An op name outside the algebra cannot occur in
the typed `Op`. -/
def vApply (s : St) (op : Op) : VOut :=
  match op with
  | Op.SELECT_UNIVERSE u n =>
    let u_norm := ascii_upper u
    if !is_boolfun_name u_norm then VOut.invalid
    else if 1 <<< n > 64 then VOut.err
    else
      let all := build_boolfun n
      let bset := insSort bfLe all
      VOut.next { s with is_boolfun := true, is_ge := false, cst := Constraint.empty,
                         state_set := [], witness := none,
                         boolfun_n := n, boolfun_all := all, boolfun_set := bset,
                         set_digest := canonical_set_digest_boolfun bset, witness_bf := none }
  | Op.FILTER_WEIGHT mn mx =>
    if !s.is_boolfun then VOut.invalid
    else
      let out := insSort bfLe (s.boolfun_all.filter (fun f => mn ≤ f.weight ∧ f.weight ≤ mx))
      VOut.next { s with boolfun_set := out,
                         set_digest := canonical_set_digest_boolfun out, witness_bf := none }
  | Op.TOPK target_s k =>
    if !s.is_boolfun then VOut.invalid
    else
      match parse_elem target_s with
      | none => VOut.err
      | some target =>
        if target.n ≠ s.boolfun_n then VOut.invalid
        else
          let scored := s.boolfun_set.map (fun f => (f.hamming target, f))
          let sorted := insSort
            (fun x y => ((compare x.1 y.1).then (boolfun_canonical_cmp x.2 y.2)).isLE) scored
          let top := sorted.take (min k sorted.length)
          VOut.next { s with witness_bf := (top.head?).map (fun p => p.2) }
  | Op.START_ELEM elem =>
    let ge := elem.data.contains ','
    if ge then
      match tri_parts elem with
      | [pa, pb, pc] =>
        match parseInt? pa, parseInt? pb, parseInt? pc with
        | some a, some b, some c =>
          match Tri.new a b c with
          | none => VOut.err
          | some _ =>
            let tris := insSort geomLe ge_state
            let v := insSort canonLe (tris.map (fun t => Frac.mk t.a t.c))
            VOut.next { s with is_ge := true, cst := Constraint.empty, state_set := v,
                               set_digest := canonical_set_digest v,
                               witness := some (Frac.mk a c) }
        | _, _, _ => VOut.err
      | _ => VOut.err
    else
      match parse_frac elem with
      | none => VOut.err
      | some f =>
        VOut.next { s with is_ge := false, cst := Constraint.empty, state_set := qe,
                           set_digest := canonical_set_digest qe, witness := some f }
  | Op.SET_BIT i b =>
    let cst := s.cst.set_bit i b
    let v :=
      if s.is_ge then
        let tris := insSort geomLe (ge_state.filter (fun t => cst.matches (sig7_geom t)))
        insSort canonLe (tris.map (fun t => Frac.mk t.a t.c))
      else filter_qe qe cst
    if v = [] then VOut.invalid
    else VOut.next { s with cst := cst, state_set := v, set_digest := canonical_set_digest v }
  | Op.WITNESS_NEAREST target metric =>
    if metric ≠ "ABS_DIFF" then VOut.invalid
    else
      if s.is_ge ∨ target.data.contains ',' then
        match tri_parts target with
        | [pa, pb, pc] =>
          -- the verifier parses with `.ok().unwrap_or(0)` before re-validating
          let a := (parseInt? pa).getD 0
          let b := (parseInt? pb).getD 0
          let c := (parseInt? pc).getD 0
          match Tri.new a b c with
          | none => VOut.invalid
          | some _ =>
            match witness_nearest s.state_set (Frac.mk a c) with
            | none => VOut.err
            | some w => VOut.next { s with witness := some w }
        | _ => VOut.invalid
      else
        match parse_frac target with
        | none => VOut.err
        | some t =>
          match witness_nearest s.state_set t with
          | none => VOut.err
          | some w => VOut.next { s with witness := some w }
  | Op.RETURN_SET _ _ => VOut.next s

/-- The post-field and step-digest checks that follow the transition in
`verify.rs` (field mismatches are `Err(anyhow!…)`), then the chain update. -/
def verifyStep (s : St) (rec : StepRec) : VOut :=
  match vApply s rec.op with
  | VOut.err => VOut.err
  | VOut.invalid => VOut.invalid
  | VOut.next s1 =>
    if rec.post.set_digest ≠ some s1.set_digest then VOut.err
    else if rec.post.count ≠ (if s1.is_boolfun then s1.boolfun_set.length
                              else s1.state_set.length) then VOut.err
    else if (if s1.is_boolfun then
              match s1.witness_bf with
              | some w => rec.post.witness ≠ some (boolfun_to_string w)
              | none => False
            else
              match s1.witness with
              | some w => rec.post.witness ≠ some (frac_to_string w)
              | none => False : Bool) then VOut.err
    else
      let sd := step_digest s.chain rec.op s1.set_digest
      if rec.step_digest ≠ sd then VOut.err
      else VOut.next { s1 with chain := sd }

/-- The record loop of `verify_trace_ndjson`: `none` is an `Err`, `some false`
an early `Ok(false)`, `some true` the final `Ok(true)`. -/
def verifyLoop (s : St) : List StepRec → Option Bool
  | [] => some true
  | r :: rest =>
    match verifyStep s r with
    | VOut.err => none
    | VOut.invalid => some false
    | VOut.next s1 => verifyLoop s1 rest

/-- `verify.rs` `verify_trace_ndjson` on an in-memory transcript. -/
def verify_trace_ndjson (recs : List StepRec) : Option Bool :=
  verifyLoop initSt recs

/-- The verifier's replayed final state (same `verifyStep` actions as
`verifyLoop`, returning the shadow state when every record is accepted). -/
def verifyRun (s : St) : List StepRec → Option St
  | [] => some s
  | r :: rest =>
    match verifyStep s r with
    | VOut.next s1 => verifyRun s1 rest
    | _ => none

/-- `exec.rs` `ExecutionResult` (the artifact paths are out of scope). -/
structure ExecutionResult where
  valid : Bool
  final_count : Nat
  witness : Option WitStr
deriving DecidableEq, Repr

/-- `exec.rs` `run_trace_and_write`: execute all ops, feed the transcript to
the verifier (whose `Err` aborts the run via `?`), and report the verifier's
verdict together with the final count and rendered witness. -/
def run_trace_and_write (ops : List Op) : Option (ExecutionResult × List StepRec) :=
  match runLoop 0 initSt ops with
  | none => none
  | some (recs, fin) =>
    match verify_trace_ndjson recs with
    | none => none
    | some ok =>
      some ({ valid := ok,
              final_count := if fin.is_boolfun then fin.boolfun_set.length
                             else fin.state_set.length,
              witness := if fin.is_boolfun then fin.witness_bf.map boolfun_to_string
                         else fin.witness.map frac_to_string }, recs)

/-! ## Auxiliary definitions used by the statements and proofs -/

/-- `l` is sorted (non-strictly) by the boolean comparator `le`. -/
def SortedBy (le : α → α → Bool) (l : List α) : Prop :=
  l.Pairwise (fun a b => le a b = true)

instance (le : α → α → Bool) (l : List α) : Decidable (SortedBy le l) := by
  unfold SortedBy; infer_instance

/-- `|ni - 200|` for `ni < 401`, in `Nat`. -/
def dist200 (ni : Nat) : Nat := if ni < 200 then 200 - ni else ni - 200

/-- The reduced fractions with denominator `di + 1` and numerator in
`[-200, 200]`, enumerated by numerator index. -/
def qeSpecRow (di : Nat) : List Frac :=
  ((List.range 401).filter (fun ni => Nat.gcd (dist200 ni) (di + 1) = 1)).map
    (fun (ni : Nat) => Frac.mk ((ni : Int) - 200) ((di : Int) + 1))

/-- Reference enumeration of the rational universe: for each denominator
`1..200` the numerators in `[-200,200]` coprime to it.  Proved below to be a
permutation of `build_qe`. -/
def qeSpec : List Frac := (List.range 200).flatMap qeSpecRow

/-- The intrinsic characterization of membership in the rational universe. -/
def QeMem (x : Frac) : Prop :=
  1 ≤ x.den ∧ x.den ≤ 200 ∧ x.num.natAbs ≤ 200 ∧ Nat.gcd x.num.natAbs x.den.natAbs = 1

instance : DecidablePred QeMem := fun x => by unfold QeMem; infer_instance

/-- Ops of the pure rational mode: `START_ELEM`/`WITNESS_NEAREST` with
fraction (comma-free) arguments, `SET_BIT`, `RETURN_SET`. -/
def fracModeOp : Op → Bool
  | Op.START_ELEM e => !e.data.contains ','
  | Op.SET_BIT _ _ => true
  | Op.WITNESS_NEAREST t _ => !t.data.contains ','
  | Op.RETURN_SET _ _ => true
  | _ => false

/-- The state invariant of the rational mode: the candidate set is a subset of
the rational universe, canonically sorted without duplicates, and the stored
digest is the Merkle root of its leaf hashes. -/
def InvFrac (s : St) : Prop :=
  s.is_boolfun = false ∧ s.is_ge = false ∧
  SortedBy canonLe s.state_set ∧ s.state_set.Nodup ∧
  (∀ x ∈ s.state_set, x ∈ qe) ∧
  s.set_digest = canonical_set_digest s.state_set

instance (s : St) : Decidable (InvFrac s) := by unfold InvFrac; infer_instance

/-- The scenario S1 op list (`START_ELEM 7/200`, `SET_BIT i=2 b=1`,
`WITNESS_NEAREST target=7/200 ABS_DIFF`, `RETURN_SET max_items=20
include_witness=true`). -/
def s1ops : List Op :=
  [Op.START_ELEM ("7/200"), Op.SET_BIT 2 1,
   Op.WITNESS_NEAREST ("7/200") ("ABS_DIFF"), Op.RETURN_SET 20 true]

/-- Row counter for the reference enumeration: numerator indices below the
fuel bound whose numerator is coprime to `d + 1`. -/
def countRowQ (d : Nat) : Nat → Nat
  | 0 => 0
  | n + 1 => countRowQ d n + (if Nat.gcd (dist200 n) (d + 1) = 1 then 1 else 0)

/-- Total counter for the reference enumeration over the first `n`
denominators. -/
def countAllQ : Nat → Nat
  | 0 => 0
  | n + 1 => countAllQ n + countRowQ n 401

/-- The comparator used on `(distance, candidate)` pairs by the `TOPK` arms. -/
def scoredLe (x y : Nat × BoolFun) : Bool :=
  ((compare x.1 y.1).then (boolfun_canonical_cmp x.2 y.2)).isLE

/-- Non-strict cross-multiplied comparison of distance pairs (the complement
of `dist_lt` in the other direction, for positive second components). -/
def distLE (x y : Int × Int) : Prop := x.1 * y.2 ≤ y.1 * x.2

/-! ## Concrete scenario data used by the claim statements

The states and records of the executed scenarios are spelled out so that the
run equalities below are definitional (`qe` itself stays opaque inside them:
every field only mentions `qe`, `filter_qe qe _` or their digests). -/

/-- The constraint after `SET_BIT i=2 b=1` from the empty constraint
(bit 2 is `den ≤ 6`). -/
def c47 : Constraint := ⟨4, 4⟩

/-- The constraint after `SET_BIT i=1 b=0` from the empty constraint
(bit 1 is the constant-true `rat_int` predicate). -/
def c20 : Constraint := ⟨2, 0⟩

def s1op1 : Op := Op.START_ELEM ("7/200")

def s1op3 : Op := Op.WITNESS_NEAREST ("7/200") ("ABS_DIFF")

def s1op4 : Op := Op.RETURN_SET 20 true

/-- State after `START_ELEM 7/200`. -/
def s1st1 : St :=
  { initSt with state_set := qe, set_digest := canonical_set_digest qe,
                witness := some (Frac.mk 7 200),
                chain := step_digest Digest.empty s1op1 (canonical_set_digest qe) }

def s1rec1 : StepRec :=
  { step := 0, op := s1op1,
    pre := { set_digest := none, count := 0, constraint_mask := 0, constraint_value := 0 },
    post := { set_digest := some (canonical_set_digest qe), count := qe.length,
              witness := some (WitStr.fracStr 7 200) },
    step_digest := step_digest Digest.empty s1op1 (canonical_set_digest qe) }

/-- State after the further `SET_BIT i=2 b=1`. -/
def s1st2 : St :=
  { s1st1 with cst := c47, state_set := filter_qe qe c47,
               set_digest := canonical_set_digest (filter_qe qe c47),
               chain := step_digest s1st1.chain (Op.SET_BIT 2 1)
                          (canonical_set_digest (filter_qe qe c47)) }

def s1rec2 : StepRec :=
  { step := 1, op := Op.SET_BIT 2 1,
    pre := { set_digest := some (canonical_set_digest qe), count := qe.length,
             constraint_mask := 0, constraint_value := 0 },
    post := { set_digest := some (canonical_set_digest (filter_qe qe c47)),
              count := (filter_qe qe c47).length,
              witness := some (WitStr.fracStr 7 200) },
    step_digest := step_digest s1st1.chain (Op.SET_BIT 2 1)
                     (canonical_set_digest (filter_qe qe c47)) }

/-- State after the further `WITNESS_NEAREST 7/200 ABS_DIFF` (the returned
witness, proved below, is `0/1`). -/
def s1st3 : St :=
  { s1st2 with witness := some (Frac.mk 0 1),
               chain := step_digest s1st2.chain s1op3
                          (canonical_set_digest (filter_qe qe c47)) }

def s1rec3 : StepRec :=
  { step := 2, op := s1op3,
    pre := { set_digest := some (canonical_set_digest (filter_qe qe c47)),
             count := (filter_qe qe c47).length,
             constraint_mask := 4, constraint_value := 4 },
    post := { set_digest := some (canonical_set_digest (filter_qe qe c47)),
              count := (filter_qe qe c47).length,
              witness := some (WitStr.fracStr 0 1) },
    step_digest := step_digest s1st2.chain s1op3
                     (canonical_set_digest (filter_qe qe c47)) }

/-- State after the final `RETURN_SET` (a state identity plus the chain step). -/
def s1st4 : St :=
  { s1st3 with chain := step_digest s1st3.chain s1op4
                          (canonical_set_digest (filter_qe qe c47)) }

def s1rec4 : StepRec :=
  { step := 3, op := s1op4,
    pre := { set_digest := some (canonical_set_digest (filter_qe qe c47)),
             count := (filter_qe qe c47).length,
             constraint_mask := 4, constraint_value := 4 },
    post := { set_digest := some (canonical_set_digest (filter_qe qe c47)),
              count := (filter_qe qe c47).length,
              witness := some (WitStr.fracStr 0 1) },
    step_digest := step_digest s1st3.chain s1op4
                     (canonical_set_digest (filter_qe qe c47)) }

def s1recs : List StepRec := [s1rec1, s1rec2, s1rec3, s1rec4]

/-- The `ExecutionResult` of the S1 scenario. -/
def s1res : ExecutionResult :=
  { valid := true, final_count := (filter_qe qe c47).length,
    witness := some (WitStr.fracStr 0 1) }

/-- Ops of the C2 scenario: the `SET_BIT i=1 b=0` empties the candidate set
(bit 1 is constant-true), and the run continues regardless. -/
def c2ops : List Op := [s1op1, Op.SET_BIT 1 0, Op.RETURN_SET 5 true]

def c2st2 : St :=
  { s1st1 with cst := c20, state_set := filter_qe qe c20,
               set_digest := canonical_set_digest (filter_qe qe c20),
               chain := step_digest s1st1.chain (Op.SET_BIT 1 0)
                          (canonical_set_digest (filter_qe qe c20)) }

def c2rec2 : StepRec :=
  { step := 1, op := Op.SET_BIT 1 0,
    pre := { set_digest := some (canonical_set_digest qe), count := qe.length,
             constraint_mask := 0, constraint_value := 0 },
    post := { set_digest := some (canonical_set_digest (filter_qe qe c20)),
              count := (filter_qe qe c20).length,
              witness := some (WitStr.fracStr 7 200) },
    step_digest := step_digest s1st1.chain (Op.SET_BIT 1 0)
                     (canonical_set_digest (filter_qe qe c20)) }

def c2st3 : St :=
  { c2st2 with chain := step_digest c2st2.chain (Op.RETURN_SET 5 true)
                          (canonical_set_digest (filter_qe qe c20)) }

def c2rec3 : StepRec :=
  { step := 2, op := Op.RETURN_SET 5 true,
    pre := { set_digest := some (canonical_set_digest (filter_qe qe c20)),
             count := (filter_qe qe c20).length,
             constraint_mask := 2, constraint_value := 0 },
    post := { set_digest := some (canonical_set_digest (filter_qe qe c20)),
              count := (filter_qe qe c20).length,
              witness := some (WitStr.fracStr 7 200) },
    step_digest := step_digest c2st2.chain (Op.RETURN_SET 5 true)
                     (canonical_set_digest (filter_qe qe c20)) }

/-- Ops of the C9 scenario: the second `SET_BIT i=2 b=1` is redundant
(`set_bit` is idempotent), yet a record is emitted for it. -/
def c9ops : List Op := [s1op1, Op.SET_BIT 2 1, Op.SET_BIT 2 1]

def c9st3 : St :=
  { s1st2 with chain := step_digest s1st2.chain (Op.SET_BIT 2 1)
                          (canonical_set_digest (filter_qe qe c47)) }

def c9rec3 : StepRec :=
  { step := 2, op := Op.SET_BIT 2 1,
    pre := { set_digest := some (canonical_set_digest (filter_qe qe c47)),
             count := (filter_qe qe c47).length,
             constraint_mask := 4, constraint_value := 4 },
    post := { set_digest := some (canonical_set_digest (filter_qe qe c47)),
              count := (filter_qe qe c47).length,
              witness := some (WitStr.fracStr 7 200) },
    step_digest := step_digest s1st2.chain (Op.SET_BIT 2 1)
                     (canonical_set_digest (filter_qe qe c47)) }

/-- The witness run for the chain-equivalence claim: one `SELECT_UNIVERSE`. -/
def c1ops : List Op := [Op.SELECT_UNIVERSE ("BOOLFUN") 1]

def c1run : List StepRec × St := (runLoopStrict 0 initSt c1ops).getD ([], initSt)

/-- The witness run for the per-op record claim: one `RETURN_SET`. -/
def c9wrun : List StepRec × St :=
  (runLoop 0 initSt [Op.RETURN_SET 1 false]).getD ([], initSt)

/-- The raw triangle enumeration of `build_ge 20` before its final sort. -/
def geRaw : List Tri :=
  (List.range 20).flatMap (fun (ai : Nat) =>
    (List.range 20).flatMap (fun (bi : Nat) =>
      (List.range 20).flatMap (fun (ci : Nat) =>
        let a := ((ai : Int)) + 1
        let b := ((bi : Int)) + 1
        let c := ((ci : Int)) + 1
        if a ≤ b ∧ b ≤ c then (Tri.new a b c).toList else [])))

/-- The triangle-path candidate set: sorted `a/c` fractions of the sorted
triangle universe. -/
def c5set : List Frac :=
  insSort canonLe ((insSort geomLe ge_state).map (fun t => Frac.mk t.a t.c))

/-- The state after `START_ELEM 1,1,1` (the triangle path). -/
def c5st : St :=
  { initSt with is_ge := true, cst := Constraint.empty, state_set := c5set,
                set_digest := canonical_set_digest c5set,
                witness := some (Frac.mk 1 1) }

/-- The reset state produced by an accepted `SELECT_UNIVERSE` with arity `n`. -/
def selSt (s : St) (n : Nat) : St :=
  { s with is_boolfun := true, is_ge := false, cst := Constraint.empty,
           state_set := [], witness := none, boolfun_n := n,
           boolfun_all := build_boolfun n,
           boolfun_set := insSort bfLe (build_boolfun n),
           set_digest := canonical_set_digest_boolfun (insSort bfLe (build_boolfun n)),
           witness_bf := none }

/-- The BoolFun state of the `TOPK` scenarios (arity 1, four candidates). -/
def c8st : St := (execOp initSt (Op.SELECT_UNIVERSE ("BOOLFUN") 1)).getD initSt

/-- `TOPK` with `k = 0` on that state: the witness comes out empty. -/
def c8st2 : St := (execOp c8st (Op.TOPK ("bin:01") 0)).getD initSt

def dummyRec : StepRec :=
  { step := 0, op := Op.RETURN_SET 0 false,
    pre := { set_digest := none, count := 0, constraint_mask := 0, constraint_value := 0 },
    post := { set_digest := none, count := 0, witness := none },
    step_digest := Digest.empty }

/-- `TOPK` with `k = 1` on that state, as a full executor step. -/
def c8p : St × StepRec := (execStep 1 c8st (Op.TOPK ("bin:01") 1)).getD (initSt, dummyRec)

/-- A record whose replay (`RETURN_SET` from the initial state) carries no
witness, used to exercise the verifier's witness comparison. -/
def c10rec : StepRec :=
  { step := 0, op := Op.RETURN_SET 1 false,
    pre := { set_digest := none, count := 0, constraint_mask := 0, constraint_value := 0 },
    post := { set_digest := some Digest.empty, count := 0, witness := none },
    step_digest := step_digest Digest.empty (Op.RETURN_SET 1 false) Digest.empty }

/-- The `TOPK` selection: head of the canonically sorted scored list cut to
`k` (the `let` chain of the `TOPK` arms). -/
def topkWitness (bset : List BoolFun) (target : BoolFun) (k : Nat) : Option BoolFun :=
  (((insSort scoredLe (bset.map (fun f => (f.hamming target, f)))).take
      (min k (insSort scoredLe (bset.map (fun f => (f.hamming target, f)))).length)).head?).map
    (fun q => q.2)

/-! # Theorems

## Generic facts about the insertion-sort model of `sort_by` -/

theorem ordInsert_perm (le : α → α → Bool) (a : α) (l : List α) :
    List.Perm (ordInsert le a l) (a :: l) := by
  induction l with
  | nil => simp [ordInsert]
  | cons b t ih =>
    by_cases h : le a b = true
    · simp [ordInsert, h]
    · simp only [ordInsert, h, if_neg, Bool.false_eq_true, ite_false]
      exact (ih.cons b).trans (List.Perm.swap a b t)

theorem insSort_perm (le : α → α → Bool) (l : List α) :
    List.Perm (insSort le l) l := by
  induction l with
  | nil => simp [insSort]
  | cons a t ih => exact (ordInsert_perm le a (insSort le t)).trans (ih.cons a)

theorem mem_insSort (le : α → α → Bool) (l : List α) (x : α) :
    x ∈ insSort le l ↔ x ∈ l :=
  (insSort_perm le l).mem_iff

theorem length_insSort (le : α → α → Bool) (l : List α) :
    (insSort le l).length = l.length :=
  (insSort_perm le l).length_eq

theorem nodup_insSort (le : α → α → Bool) {l : List α} (h : l.Nodup) :
    (insSort le l).Nodup :=
  ((insSort_perm le l).nodup_iff).2 h

theorem mem_ordInsert (le : α → α → Bool) (a x : α) (l : List α) :
    x ∈ ordInsert le a l ↔ x = a ∨ x ∈ l := by
  rw [(ordInsert_perm le a l).mem_iff]; simp

theorem ordInsert_sorted (le : α → α → Bool) (P : α → Prop)
    (total : ∀ x y, P x → P y → le x y = true ∨ le y x = true)
    (tr : ∀ x y z, P x → P y → P z → le x y = true → le y z = true → le x z = true)
    (a : α) (ha : P a) :
    ∀ l : List α, (∀ x ∈ l, P x) → SortedBy le l → SortedBy le (ordInsert le a l) := by
  intro l
  induction l with
  | nil => intro _ _; simp [ordInsert, SortedBy]
  | cons b t ih =>
    intro hmem hs
    have hb : P b := hmem b (by simp)
    have ht : ∀ x ∈ t, P x := fun x hx => hmem x (by simp [hx])
    have hs' : SortedBy le t := (List.pairwise_cons.1 hs).2
    have hble : ∀ x ∈ t, le b x = true := (List.pairwise_cons.1 hs).1
    by_cases h : le a b = true
    · simp only [ordInsert, h, ite_true]
      refine List.pairwise_cons.2 ⟨?_, hs⟩
      intro x hx
      rcases List.mem_cons.1 hx with rfl | hx
      · exact h
      · exact tr a b x ha hb (ht x hx) h (hble x hx)
    · simp only [ordInsert, h, Bool.false_eq_true, ite_false]
      refine List.pairwise_cons.2 ⟨?_, ih ht hs'⟩
      intro x hx
      rcases (mem_ordInsert le a x t).1 hx with rfl | hx
      · rcases total x b ha hb with h' | h'
        · exact absurd h' h
        · exact h'
      · exact hble x hx

theorem insSort_sorted (le : α → α → Bool) (P : α → Prop)
    (total : ∀ x y, P x → P y → le x y = true ∨ le y x = true)
    (tr : ∀ x y z, P x → P y → P z → le x y = true → le y z = true → le x z = true) :
    ∀ l : List α, (∀ x ∈ l, P x) → SortedBy le (insSort le l) := by
  intro l
  induction l with
  | nil => intro _; simp [insSort, SortedBy]
  | cons a t ih =>
    intro hmem
    have ha : P a := hmem a (by simp)
    have ht : ∀ x ∈ t, P x := fun x hx => hmem x (by simp [hx])
    exact ordInsert_sorted le P total tr a ha (insSort le t)
      (fun x hx => ht x ((mem_insSort le t x).1 hx)) (ih ht)

theorem sortedBy_head_le (le : α → α → Bool) {l : List α} {h : α}
    (hs : SortedBy le l) (hh : l.head? = some h) :
    ∀ x ∈ l, x = h ∨ le h x = true := by
  cases l with
  | nil => simp at hh
  | cons a t =>
    simp only [List.head?_cons, Option.some_inj] at hh
    subst hh
    intro x hx
    rcases List.mem_cons.1 hx with rfl | hx
    · exact Or.inl rfl
    · exact Or.inr ((List.pairwise_cons.1 hs).1 x hx)

/-! ## Comparator facts -/

theorem int_compare_swap (a b : Int) : compare b a = (compare a b).swap := by
  rcases lt_trichotomy a b with h | h | h
  · rw [compare_lt_iff_lt.2 h, compare_gt_iff_gt.2 h]; rfl
  · rw [compare_eq_iff_eq.2 h, compare_eq_iff_eq.2 h.symm]; rfl
  · rw [compare_gt_iff_gt.2 h, compare_lt_iff_lt.2 h]; rfl

theorem nat_compare_swap (a b : Nat) : compare b a = (compare a b).swap := by
  rcases lt_trichotomy a b with h | h | h
  · rw [compare_lt_iff_lt.2 h, compare_gt_iff_gt.2 h]; rfl
  · rw [compare_eq_iff_eq.2 h, compare_eq_iff_eq.2 h.symm]; rfl
  · rw [compare_gt_iff_gt.2 h, compare_lt_iff_lt.2 h]; rfl

theorem ordering_then_swap (o1 o2 : Ordering) :
    (o1.then o2).swap = o1.swap.then o2.swap := by
  cases o1 <;> rfl

theorem canonical_cmp_swap (a b : Frac) :
    canonical_cmp b a = (canonical_cmp a b).swap := by
  unfold canonical_cmp Frac.cmp_value
  rw [ordering_then_swap, ordering_then_swap, ordering_then_swap,
    int_compare_swap (a.num * b.den), int_compare_swap a.abs_num,
    int_compare_swap a.den, int_compare_swap a.num]

theorem canonLe_total (a b : Frac) : canonLe a b = true ∨ canonLe b a = true := by
  unfold canonLe
  rw [canonical_cmp_swap b a]
  cases canonical_cmp b a <;> simp [Ordering.isLE, Ordering.swap]

/-- `isLE` of the canonical comparison, unfolded into arithmetic. -/
theorem canonLe_iff (a b : Frac) :
    canonLe a b = true ↔
      a.num * b.den < b.num * a.den ∨
      (a.num * b.den = b.num * a.den ∧
        (|a.num| < |b.num| ∨ (|a.num| = |b.num| ∧
          (a.den < b.den ∨ (a.den = b.den ∧ a.num ≤ b.num))))) := by
  unfold canonLe canonical_cmp Frac.cmp_value Frac.abs_num
  rcases lt_trichotomy (a.num * b.den) (b.num * a.den) with h1 | h1 | h1
  · simp [compare_lt_iff_lt.2 h1, Ordering.then, Ordering.isLE, h1]
  · rw [compare_eq_iff_eq.2 h1]
    rcases lt_trichotomy |a.num| |b.num| with h2 | h2 | h2
    · simp [compare_lt_iff_lt.2 h2, Ordering.then, Ordering.isLE, h1, h2]
    · rw [compare_eq_iff_eq.2 h2]
      rcases lt_trichotomy a.den b.den with h3 | h3 | h3
      · simp [compare_lt_iff_lt.2 h3, Ordering.then, Ordering.isLE, h1, h2, h3]
      · rw [compare_eq_iff_eq.2 h3]
        rcases le_or_lt a.num b.num with h4 | h4
        · rcases lt_or_eq_of_le h4 with h5 | h5
          · simp [compare_lt_iff_lt.2 h5, Ordering.then, Ordering.isLE, h1, h2, h3, h4]
          · simp [compare_eq_iff_eq.2 h5, Ordering.then, Ordering.isLE, h1, h2, h3, h4]
        · simp [compare_gt_iff_gt.2 h4, Ordering.then, Ordering.isLE, h1, h2, h3,
            not_le.2 h4, lt_irrefl]
          try omega
      · simp [compare_gt_iff_gt.2 h3, Ordering.then, Ordering.isLE, h1, h2]
        omega
    · simp [compare_gt_iff_gt.2 h2, Ordering.then, Ordering.isLE, h1]
      omega
  · rw [compare_gt_iff_gt.2 h1]
    simp only [Ordering.then, Ordering.isLE, Bool.false_eq_true, false_iff]
    intro h
    rcases h with h | ⟨h, _⟩
    · exact absurd h (not_lt.2 h1.le)
    · exact absurd h (ne_of_gt h1)

theorem canonLe_trans_pos {a b c : Frac} (ha : 0 < a.den) (hb : 0 < b.den)
    (hc : 0 < c.den) (h1 : canonLe a b = true) (h2 : canonLe b c = true) :
    canonLe a c = true := by
  rw [canonLe_iff] at h1 h2 ⊢
  rcases h1 with h1 | ⟨h1, h1'⟩
  · rcases h2 with h2 | ⟨h2, _⟩
    · left
      have k1 : a.num * b.den * c.den < b.num * a.den * c.den :=
        mul_lt_mul_of_pos_right h1 hc
      have k2 : b.num * c.den * a.den < c.num * b.den * a.den :=
        mul_lt_mul_of_pos_right h2 ha
      have k3 : a.num * c.den * b.den < c.num * a.den * b.den := by nlinarith
      exact lt_of_mul_lt_mul_right k3 hb.le
    · left
      have k1 : a.num * b.den * c.den < b.num * a.den * c.den :=
        mul_lt_mul_of_pos_right h1 hc
      have k3 : a.num * c.den * b.den < c.num * a.den * b.den := by nlinarith
      exact lt_of_mul_lt_mul_right k3 hb.le
  · rcases h2 with h2 | ⟨h2, h2'⟩
    · left
      have k2 : b.num * c.den * a.den < c.num * b.den * a.den :=
        mul_lt_mul_of_pos_right h2 ha
      have k3 : a.num * c.den * b.den < c.num * a.den * b.den := by nlinarith
      exact lt_of_mul_lt_mul_right k3 hb.le
    · right
      constructor
      · have k3 : a.num * c.den * b.den = c.num * a.den * b.den := by
          linear_combination c.den * h1 + a.den * h2
        exact mul_right_cancel₀ hb.ne' k3
      · omega

theorem bfLe_iff (x y : BoolFun) :
    bfLe x y = true ↔ x.n < y.n ∨ (x.n = y.n ∧ x.bits ≤ y.bits) := by
  unfold bfLe boolfun_canonical_cmp
  rcases lt_trichotomy x.n y.n with h1 | h1 | h1
  · simp [compare_lt_iff_lt.2 h1, Ordering.then, Ordering.isLE, h1]
  · rw [compare_eq_iff_eq.2 h1]
    rcases lt_trichotomy x.bits y.bits with h2 | h2 | h2
    · simp [compare_lt_iff_lt.2 h2, Ordering.then, Ordering.isLE, h1]
      omega
    · simp [compare_eq_iff_eq.2 h2, Ordering.then, Ordering.isLE, h1]
      omega
    · simp [compare_gt_iff_gt.2 h2, Ordering.then, Ordering.isLE, h1]
      omega
  · simp [compare_gt_iff_gt.2 h1, Ordering.then, Ordering.isLE]
    omega

theorem bfLe_total (x y : BoolFun) : bfLe x y = true ∨ bfLe y x = true := by
  rw [bfLe_iff, bfLe_iff]; omega

theorem bfLe_trans {x y z : BoolFun} (h1 : bfLe x y = true) (h2 : bfLe y z = true) :
    bfLe x z = true := by
  rw [bfLe_iff] at h1 h2 ⊢; omega

theorem scoredLe_iff (x y : Nat × BoolFun) :
    scoredLe x y = true ↔ x.1 < y.1 ∨ (x.1 = y.1 ∧ bfLe x.2 y.2 = true) := by
  unfold scoredLe
  rcases lt_trichotomy x.1 y.1 with h1 | h1 | h1
  · simp [compare_lt_iff_lt.2 h1, Ordering.then, Ordering.isLE, h1]
  · rw [compare_eq_iff_eq.2 h1]
    unfold bfLe
    cases boolfun_canonical_cmp x.2 y.2 <;> simp [Ordering.then, Ordering.isLE, h1]
  · simp [compare_gt_iff_gt.2 h1, Ordering.then, Ordering.isLE]
    omega

theorem scoredLe_total (x y : Nat × BoolFun) :
    scoredLe x y = true ∨ scoredLe y x = true := by
  rw [scoredLe_iff, scoredLe_iff]
  rcases lt_trichotomy x.1 y.1 with h | h | h
  · left; left; exact h
  · rcases bfLe_total x.2 y.2 with h' | h'
    · left; right; exact ⟨h, h'⟩
    · right; right; exact ⟨h.symm, h'⟩
  · right; left; exact h

theorem scoredLe_trans {x y z : Nat × BoolFun} (h1 : scoredLe x y = true)
    (h2 : scoredLe y z = true) : scoredLe x z = true := by
  rw [scoredLe_iff] at h1 h2 ⊢
  rcases h1 with h1 | ⟨h1, h1'⟩
  · rcases h2 with h2 | ⟨h2, _⟩
    · left; omega
    · left; omega
  · rcases h2 with h2 | ⟨h2, h2'⟩
    · left; omega
    · right; exact ⟨h1.trans h2, bfLe_trans h1' h2'⟩

/-! ## The witness scan -/

theorem distance_snd_pos {target f : Frac} (ht : 0 < target.den) (hf : 0 < f.den) :
    0 < (distance_num_den target f).2 :=
  mul_pos ht hf

theorem distLE_refl (x : Int × Int) : distLE x x := le_refl _

theorem distLE_trans {x y z : Int × Int} (hx : 0 < x.2) (hy : 0 < y.2) (hz : 0 < z.2)
    (h1 : distLE x y) (h2 : distLE y z) : distLE x z := by
  unfold distLE at h1 h2 ⊢
  have k1 : x.1 * y.2 * z.2 ≤ y.1 * x.2 * z.2 := mul_le_mul_of_nonneg_right h1 hz.le
  have k2 : y.1 * z.2 * x.2 ≤ z.1 * y.2 * x.2 := mul_le_mul_of_nonneg_right h2 hx.le
  have k3 : x.1 * z.2 * y.2 ≤ z.1 * x.2 * y.2 := by nlinarith
  exact le_of_mul_le_mul_right k3 hy

theorem not_dist_lt_iff (x y : Int × Int) :
    dist_lt x y = false ↔ distLE y x := by
  unfold dist_lt distLE
  simp [not_lt]

theorem dist_lt_true_iff (x y : Int × Int) :
    dist_lt x y = true ↔ x.1 * y.2 < y.1 * x.2 := by
  unfold dist_lt
  simp

/-- The scan body keeps a pair whose distance is cross-at-most both the old
best's and the new candidate's distance. -/
theorem wnStep_le (target : Frac) (acc : Frac × (Int × Int)) (f : Frac)
    (hacc : acc.2 = distance_num_den target acc.1) :
    ((wnStep target acc f).1 = acc.1 ∨ (wnStep target acc f).1 = f) ∧
      (wnStep target acc f).2 = distance_num_den target (wnStep target acc f).1 ∧
      distLE (wnStep target acc f).2 acc.2 ∧
      distLE (wnStep target acc f).2 (distance_num_den target f) := by
  simp only [wnStep]
  split
  next hbetter =>
    refine ⟨Or.inr rfl, rfl, ?_, distLE_refl _⟩
    show distLE (distance_num_den target f) acc.2
    rcases Bool.or_eq_true_iff.1 hbetter with h | h
    · rcases Bool.or_eq_true_iff.1 h with h | h
      · rw [dist_lt_true_iff] at h
        exact le_of_lt h
      · rw [(of_decide_eq_true h).1]
        exact distLE_refl _
    · rw [(of_decide_eq_true h).1]
      exact distLE_refl _
  next hbetter =>
    refine ⟨Or.inl rfl, hacc, distLE_refl _, ?_⟩
    have hA : dist_lt (distance_num_den target f) acc.2 = false := by
      rcases Bool.eq_false_or_eq_true (dist_lt (distance_num_den target f) acc.2) with h | h
      · exact absurd (Bool.or_eq_true_iff.2 (Or.inl (Bool.or_eq_true_iff.2 (Or.inl h)))) hbetter
      · exact h
    exact (not_dist_lt_iff _ _).1 hA

/-- Fold invariant of the `witness_nearest` scan: the running best is drawn
from the processed elements and its distance is a cross-multiplied lower bound
of all of them. -/
theorem wnFold_inv (target : Frac) (ht : 0 < target.den) :
    ∀ (l : List Frac) (acc : Frac × (Int × Int)),
      0 < acc.1.den → acc.2 = distance_num_den target acc.1 →
      (∀ g ∈ l, 0 < g.den) →
      ((l.foldl (wnStep target) acc).1 = acc.1 ∨ (l.foldl (wnStep target) acc).1 ∈ l) ∧
        (l.foldl (wnStep target) acc).2
          = distance_num_den target (l.foldl (wnStep target) acc).1 ∧
        distLE (l.foldl (wnStep target) acc).2 acc.2 ∧
        ∀ g ∈ l, distLE (l.foldl (wnStep target) acc).2 (distance_num_den target g) := by
  intro l
  induction l with
  | nil =>
    intro acc hd hacc _
    exact ⟨Or.inl rfl, hacc, distLE_refl _, by simp⟩
  | cons f t ih =>
    intro acc hd hacc hmem
    simp only [List.foldl_cons]
    have hf : 0 < f.den := hmem f (by simp)
    obtain ⟨hm1, hm2, hm3, hm4⟩ := wnStep_le target acc f hacc
    have hd' : 0 < (wnStep target acc f).1.den := by
      rcases hm1 with h | h
      · rw [h]; exact hd
      · rw [h]; exact hf
    obtain ⟨k1, k2, k3, k4⟩ :=
      ih (wnStep target acc f) hd' hm2 (fun x hx => hmem x (by simp [hx]))
    have hposr : 0 < (t.foldl (wnStep target) (wnStep target acc f)).2.2 := by
      rw [k2]
      rcases k1 with h | h
      · rw [h]; exact distance_snd_pos ht hd'
      · exact distance_snd_pos ht (hmem _ (by simp [h]))
    have hposm : 0 < (wnStep target acc f).2.2 := by
      rw [hm2]; exact distance_snd_pos ht hd'
    have hposa : 0 < acc.2.2 := by
      rw [hacc]; exact distance_snd_pos ht hd
    refine ⟨?_, k2, ?_, ?_⟩
    · rcases k1 with h | h
      · rw [h]
        rcases hm1 with h' | h'
        · exact Or.inl h'
        · exact Or.inr (by simp [h'])
      · exact Or.inr (by simp [h])
    · exact distLE_trans hposr hposm hposa k3 hm3
    · intro g hg
      rcases List.mem_cons.1 hg with rfl | hg
      · exact distLE_trans hposr hposm (distance_snd_pos ht hf) k3 hm4
      · exact k4 g hg

/-- `witness_nearest` returns a member of the candidate list whose distance is
cross-multiplied minimal among all candidates. -/
theorem witness_nearest_min {set : List Frac} {target w : Frac}
    (ht : 0 < target.den) (hdens : ∀ f ∈ set, 0 < f.den)
    (hw : witness_nearest set target = some w) :
    w ∈ set ∧ ∀ f ∈ set, distLE (distance_num_den target w) (distance_num_den target f) := by
  cases set with
  | nil => simp [witness_nearest] at hw
  | cons b rest =>
    simp only [witness_nearest, Option.some_inj] at hw
    have hb : 0 < b.den := hdens b (by simp)
    obtain ⟨k1, k2, k3, k4⟩ := wnFold_inv target ht rest (b, distance_num_den target b)
      hb rfl (fun x hx => hdens x (by simp [hx]))
    set r := rest.foldl (wnStep target) (b, distance_num_den target b) with hr
    constructor
    · rw [← hw]
      rcases k1 with h | h
      · rw [h]; simp
      · simp [h]
    · intro f hf
      rw [← hw, ← k2]
      rcases List.mem_cons.1 hf with rfl | hf
      · exact k3
      · exact k4 f hf

/-- If a member `w0` is strictly closer than every other member, the scan
returns it (whatever the list order). -/
theorem witness_nearest_unique {set : List Frac} {target w0 : Frac}
    (ht : 0 < target.den) (hdens : ∀ f ∈ set, 0 < f.den)
    (hmem : w0 ∈ set)
    (hstrict : ∀ f ∈ set, f ≠ w0 →
      dist_lt (distance_num_den target w0) (distance_num_den target f) = true) :
    witness_nearest set target = some w0 := by
  have hne : set ≠ [] := by intro h; rw [h] at hmem; simp at hmem
  obtain ⟨w, hw⟩ : ∃ w, witness_nearest set target = some w := by
    cases set with
    | nil => exact absurd rfl hne
    | cons b rest => exact ⟨_, rfl⟩
  obtain ⟨hwmem, hwmin⟩ := witness_nearest_min ht hdens hw
  by_cases heq : w = w0
  · rw [heq] at hw; exact hw
  · have h1 := hstrict w hwmem heq
    have h2 := hwmin w0 hmem
    rw [dist_lt_true_iff] at h1
    unfold distLE at h2
    omega

/-! ## The rational universe -/

theorem gcdLoop_eq : ∀ (f a b : Nat), b < f → gcdLoop f a b = Nat.gcd b a := by
  intro f
  induction f with
  | zero => intro a b h; omega
  | succ f ih =>
    intro a b h
    by_cases hb : b = 0
    · subst hb; simp [gcdLoop, Nat.gcd_zero_left]
    · simp only [gcdLoop, hb, if_neg]
      rw [ih b (a % b) (lt_of_lt_of_le (Nat.mod_lt a (Nat.pos_of_ne_zero hb)) (by omega))]
      exact (Nat.gcd_rec b a).symm

theorem rust_gcd_eq (a b : Int) (hb : b ≠ 0) :
    rust_gcd a b = Nat.gcd a.natAbs b.natAbs := by
  unfold rust_gcd
  rw [gcdLoop_eq _ _ _ (Nat.lt_succ_self _), Nat.gcd_comm]
  have hpos : 0 < Nat.gcd a.natAbs b.natAbs :=
    Nat.gcd_pos_of_pos_right _ (Int.natAbs_pos.2 hb)
  simp [Nat.pos_iff_ne_zero.1 hpos]

/-- What `new_reduced` produces from a positive denominator: a positive
denominator at most the input one, a numerator of no larger magnitude, and a
coprime pair. -/
theorem new_reduced_spec (num den : Int) (hd : 0 < den) :
    0 < (Frac.new_reduced num den).den ∧ (Frac.new_reduced num den).den ≤ den ∧
      (Frac.new_reduced num den).num.natAbs ≤ num.natAbs ∧
      Nat.gcd (Frac.new_reduced num den).num.natAbs
        (Frac.new_reduced num den).den.natAbs = 1 := by
  have hne : den ≠ 0 := hd.ne'
  have hflip : ¬ den < 0 := not_lt.2 hd.le
  have hg : rust_gcd num den = Nat.gcd num.natAbs den.natAbs := rust_gcd_eq num den hne
  set G : Nat := Nat.gcd num.natAbs den.natAbs with hG
  have hGpos : 0 < G := Nat.gcd_pos_of_pos_right _ (Int.natAbs_pos.2 hne)
  have hGdvd1 : (G : Int) ∣ num := by
    have := @Int.gcd_dvd_left num den
    simpa [Int.gcd] using this
  have hGdvd2 : (G : Int) ∣ den := by
    have := @Int.gcd_dvd_right num den
    simpa [Int.gcd] using this
  obtain ⟨kn, hkn⟩ := hGdvd1
  obtain ⟨kd, hkd⟩ := hGdvd2
  have hGne : (G : Int) ≠ 0 := by exact_mod_cast hGpos.ne'
  have hred : Frac.new_reduced num den = ⟨kn, kd⟩ := by
    unfold Frac.new_reduced
    simp only [hflip, if_false, hg, ← hG]
    rw [hkn, hkd, Int.mul_tdiv_cancel_left _ hGne, Int.mul_tdiv_cancel_left _ hGne]
  rw [hred]
  have hkd_pos : 0 < kd := by
    rcases le_or_lt kd 0 with h | h
    · exfalso; nlinarith [hkd ▸ hd]
    · exact h
  refine ⟨hkd_pos, ?_, ?_, ?_⟩
  · rw [hkd]
    nlinarith [hkd_pos, hGpos]
  · rw [hkn, Int.natAbs_mul]
    simpa using Nat.le_mul_of_pos_left kn.natAbs hGpos
  · have h1 : num.natAbs = G * kn.natAbs := by rw [hkn, Int.natAbs_mul]; simp
    have h2 : den.natAbs = G * kd.natAbs := by rw [hkd, Int.natAbs_mul]; simp
    have key : G * 1 = G * Nat.gcd kn.natAbs kd.natAbs := by
      rw [Nat.mul_one]
      conv_lhs => rw [hG, h1, h2]
      exact Nat.gcd_mul_left G kn.natAbs kd.natAbs
    exact (Nat.eq_of_mul_eq_mul_left hGpos key).symm

/-- A fraction that is already reduced (positive denominator, coprime) is a
fixed point of `new_reduced`. -/
theorem new_reduced_self (x : Frac) (hd : 0 < x.den)
    (hg : Nat.gcd x.num.natAbs x.den.natAbs = 1) :
    Frac.new_reduced x.num x.den = x := by
  unfold Frac.new_reduced
  simp only [not_lt.2 hd.le, if_false, rust_gcd_eq _ _ hd.ne', hg]
  simp [Int.tdiv_one]

/-- The raw enumeration underlying `build_qe`. -/
theorem mem_qe_raw_iff (x : Frac) :
    x ∈ build_qe_raw ↔
    (∃ di : Nat, di < 200 ∧ ∃ ni : Nat, ni < 401 ∧
      x = Frac.new_reduced ((ni : Int) - 200) ((di : Int) + 1)) := by
  unfold build_qe_raw
  simp only [List.mem_flatMap, List.mem_map, List.mem_range]
  constructor
  · rintro ⟨di, hdi, ni, hni, rfl⟩
    exact ⟨di, hdi, ni, hni, rfl⟩
  · rintro ⟨di, hdi, ni, hni, rfl⟩
    exact ⟨di, hdi, ni, hni, rfl⟩


/-- Membership in `build_qe` is exactly the intrinsic characterization
`QeMem`: denominator in `[1,200]`, numerator magnitude at most 200, coprime. -/
theorem mem_qe_iff (x : Frac) : x ∈ qe ↔ QeMem x := by
  unfold qe build_qe
  rw [mem_insSort, List.mem_dedup, mem_qe_raw_iff]
  constructor
  · rintro ⟨di, hdi, ni, hni, rfl⟩
    have hdpos : (0 : Int) < (di : Int) + 1 := by omega
    obtain ⟨h1, h2, h3, h4⟩ := new_reduced_spec ((ni : Int) - 200) ((di : Int) + 1) hdpos
    refine ⟨h1, ?_, ?_, h4⟩
    · have hb : ((di : Int) + 1) ≤ 200 := by omega
      omega
    · have hb : ((ni : Int) - 200).natAbs ≤ 200 := by omega
      omega
  · intro hq
    obtain ⟨h1, h2, h3, h4⟩ := hq
    refine ⟨(x.den - 1).toNat, by omega, (x.num + 200).toNat, by omega, ?_⟩
    have e1 : (((x.num + 200).toNat : Int)) - 200 = x.num := by omega
    have e2 : (((x.den - 1).toNat : Int)) + 1 = x.den := by omega
    rw [e1, e2]
    exact (new_reduced_self x (by omega) h4).symm

theorem mem_qeSpecRow_iff (di : Nat) (x : Frac) :
    x ∈ qeSpecRow di ↔
      x.den = (di : Int) + 1 ∧ x.num.natAbs ≤ 200 ∧
        Nat.gcd x.num.natAbs x.den.natAbs = 1 := by
  unfold qeSpecRow
  simp only [List.mem_map, List.mem_filter, List.mem_range]
  constructor
  · rintro ⟨ni, ⟨hni, hg⟩, rfl⟩
    have hg' := of_decide_eq_true hg
    have ha : (((ni : Int)) - 200).natAbs = dist200 ni := by
      unfold dist200; split <;> omega
    have hb : (((di : Int) + 1)).natAbs = di + 1 := by omega
    refine ⟨rfl, ?_, ?_⟩
    · show (((ni : Int)) - 200).natAbs ≤ 200
      omega
    · show ((((ni : Int)) - 200).natAbs).gcd ((((di : Int)) + 1).natAbs) = 1
      rw [ha, hb]
      exact hg'
  · rintro ⟨h1, h2, h3⟩
    refine ⟨(x.num + 200).toNat, ⟨by omega, ?_⟩, ?_⟩
    · have ha2 : dist200 ((x.num + 200).toNat) = x.num.natAbs := by
        unfold dist200; split <;> omega
      have hb : x.den.natAbs = di + 1 := by omega
      rw [ha2]
      exact decide_eq_true (by rw [← hb]; exact h3)
    · have e1 : (((x.num + 200).toNat : Int)) - 200 = x.num := by omega
      cases x with
      | mk xn xd =>
        simp only at h1 e1 ⊢
        rw [e1]
        rw [← h1]

theorem mem_qeSpec_iff (x : Frac) : x ∈ qeSpec ↔ QeMem x := by
  unfold qeSpec
  rw [List.mem_flatMap]
  constructor
  · rintro ⟨di, hdi, hx⟩
    rw [List.mem_range] at hdi
    obtain ⟨h1, h2, h3⟩ := (mem_qeSpecRow_iff di x).1 hx
    exact ⟨by omega, by omega, h2, h3⟩
  · intro hq
    obtain ⟨h1, h2, h3, h4⟩ := hq
    refine ⟨(x.den - 1).toNat, List.mem_range.2 (by omega), ?_⟩
    exact (mem_qeSpecRow_iff _ x).2 ⟨by omega, h3, h4⟩

theorem qeSpec_nodup : qeSpec.Nodup := by
  unfold qeSpec
  rw [List.nodup_flatMap]
  constructor
  · intro di _
    unfold qeSpecRow
    refine List.Nodup.map ?_ (((List.nodup_range 401)).filter _)
    intro a b hab
    have hnum : ((a : Int) - 200) = ((b : Int) - 200) := congrArg Frac.num hab
    omega
  · refine (List.pairwise_lt_range 200).imp ?_
    intro a b hab x hx1 hx2
    have h1 := ((mem_qeSpecRow_iff a x).1 hx1).1
    have h2 := ((mem_qeSpecRow_iff b x).1 hx2).1
    omega

theorem qe_nodup : qe.Nodup := by
  unfold qe build_qe
  exact nodup_insSort _ (List.nodup_dedup _)

theorem qe_perm_qeSpec : List.Perm qe qeSpec := by
  refine (List.perm_ext_iff_of_nodup qe_nodup qeSpec_nodup).2 ?_
  intro x
  rw [mem_qe_iff, mem_qeSpec_iff]

theorem qeSpecRow_length (di : Nat) :
    (qeSpecRow di).length =
      ((List.range 401).filter (fun ni => Nat.gcd (dist200 ni) (di + 1) = 1)).length := by
  unfold qeSpecRow
  rw [List.length_map]

theorem qeSpec_length_eq_sum :
    qeSpec.length =
      ((List.range 200).map (fun di =>
        ((List.range 401).filter (fun ni =>
          Nat.gcd (dist200 ni) (di + 1) = 1)).length)).sum := by
  unfold qeSpec
  rw [List.length_flatMap]
  refine congrArg List.sum ?_
  refine List.map_congr_left ?_
  intro di _
  show (qeSpecRow di).length = _
  exact qeSpecRow_length di

theorem filter_range_length_eq_countRowQ (d : Nat) :
    ∀ n, ((List.range n).filter (fun ni =>
      Nat.gcd (dist200 ni) (d + 1) = 1)).length = countRowQ d n := by
  intro n
  induction n with
  | zero => rfl
  | succ n ih =>
    have step : countRowQ d (n + 1)
        = countRowQ d n + (if Nat.gcd (dist200 n) (d + 1) = 1 then 1 else 0) := rfl
    rw [List.range_succ, List.filter_append, List.length_append, ih, step]
    by_cases h : Nat.gcd (dist200 n) (d + 1) = 1
    · simp [List.filter, h]
    · simp [List.filter, h]

theorem sum_rows_eq_countAllQ :
    ∀ n, ((List.range n).map (fun di =>
      ((List.range 401).filter (fun ni =>
        Nat.gcd (dist200 ni) (di + 1) = 1)).length)).sum = countAllQ n := by
  intro n
  induction n with
  | zero => rfl
  | succ n ih =>
    have step : countAllQ (n + 1) = countAllQ n + countRowQ n 401 := rfl
    have e : List.range (n + 1) = List.range n ++ [n] := List.range_succ n
    rw [e, step, ← ih, ← filter_range_length_eq_countRowQ n 401]
    simp

set_option maxRecDepth 30000 in
set_option maxHeartbeats 4000000 in
theorem countAllQ_200 : countAllQ 200 = 48927 := by decide

theorem qeSpec_length : qeSpec.length = 48927 := by
  rw [qeSpec_length_eq_sum, sum_rows_eq_countAllQ]
  exact countAllQ_200

/-- The rational universe has exactly 48,927 elements. -/
theorem qe_length : qe.length = 48927 :=
  qe_perm_qeSpec.length_eq.trans qeSpec_length

theorem qe_den_pos : ∀ x ∈ qe, 0 < x.den := by
  intro x hx
  have h := (mem_qe_iff x).1 hx
  exact h.1

theorem qe_sorted : SortedBy canonLe qe := by
  have hmem : ∀ x ∈ (build_qe_raw).dedup, 0 < x.den := by
    intro x hx
    rw [List.mem_dedup, mem_qe_raw_iff] at hx
    obtain ⟨di, hdi, ni, hni, rfl⟩ := hx
    exact (new_reduced_spec _ _ (by omega)).1
  show SortedBy canonLe (insSort canonLe (build_qe_raw).dedup)
  exact insSort_sorted canonLe (fun f => 0 < f.den)
    (fun x y _ _ => canonLe_total x y)
    (fun x y z hx hy hz => canonLe_trans_pos hx hy hz)
    _ hmem

attribute [irreducible] qe build_qe build_qe_raw

/-! ## The constraint filter and the rational-mode invariant -/

theorem mem_filter_qe (q : List Frac) (cst : Constraint) (x : Frac) :
    x ∈ filter_qe q cst ↔ x ∈ q ∧ cst.matches (sig7 x) = true := by
  unfold filter_qe
  rw [mem_insSort, List.mem_filter]

theorem filter_qe_nodup {q : List Frac} (cst : Constraint) (hq : q.Nodup) :
    (filter_qe q cst).Nodup :=
  nodup_insSort _ (hq.filter _)

theorem filter_qe_sorted {q : List Frac} (cst : Constraint)
    (hdens : ∀ x ∈ q, 0 < x.den) : SortedBy canonLe (filter_qe q cst) := by
  unfold filter_qe
  exact insSort_sorted canonLe (fun f => 0 < f.den)
    (fun x y _ _ => canonLe_total x y)
    (fun x y z hx hy hz => canonLe_trans_pos hx hy hz)
    _ (fun x hx => hdens x (List.mem_filter.1 hx).1)

/-- Decomposition of a successful `execStep`: the inner transition succeeded
and the returned state is that transition's state with the chain advanced. -/
theorem execStep_some {idx : Nat} {s : St} {op : Op} {p : St × StepRec}
    (h : execStep idx s op = some p) :
    ∃ s1, execOp s op = some s1 ∧
      p.1 = { s1 with chain := step_digest s.chain op s1.set_digest } ∧
      p.2.op = op ∧
      p.2.post = { set_digest := some s1.set_digest,
                   count := if s1.is_boolfun then s1.boolfun_set.length
                            else s1.state_set.length,
                   witness := if s1.is_boolfun then s1.witness_bf.map boolfun_to_string
                              else s1.witness.map frac_to_string } ∧
      p.2.step_digest = step_digest s.chain op s1.set_digest := by
  unfold execStep at h
  cases hE : execOp s op with
  | none => rw [hE] at h; simp at h
  | some s1 =>
    rw [hE] at h
    simp only [Option.some_inj] at h
    subst h
    exact ⟨s1, rfl, rfl, rfl, rfl, rfl⟩

theorem invFrac_init : InvFrac initSt := by decide

theorem invFrac_execOp {s : St} {op : Op} {s1 : St}
    (hInv : InvFrac s) (hmode : fracModeOp op = true)
    (h : execOp s op = some s1) : InvFrac s1 := by
  obtain ⟨hbf, hge, hsort, hnd, hsub, hdig⟩ := hInv
  cases op with
  | SELECT_UNIVERSE u n => simp [fracModeOp] at hmode
  | FILTER_WEIGHT mn mx => simp [fracModeOp] at hmode
  | TOPK t k => simp [fracModeOp] at hmode
  | RETURN_SET mi iw =>
    simp only [execOp, Option.some_inj] at h
    subst h
    exact ⟨hbf, hge, hsort, hnd, hsub, hdig⟩
  | START_ELEM e =>
    have hc : e.data.contains ',' = false := by
      simp [fracModeOp] at hmode
      simpa using hmode
    simp only [execOp, hc, Bool.false_eq_true, if_false, ite_false] at h
    cases hp : parse_frac e with
    | none => rw [hp] at h; simp at h
    | some f =>
      rw [hp] at h
      simp only [Option.some_inj] at h
      subst h
      refine ⟨hbf, rfl, qe_sorted, qe_nodup, fun x hx => hx, rfl⟩
  | SET_BIT i b =>
    simp only [execOp, Option.some_inj] at h
    subst h
    simp only [hge, Bool.false_eq_true, if_false, ite_false]
    refine ⟨hbf, rfl, ?_, ?_, ?_, rfl⟩
    · exact filter_qe_sorted _ qe_den_pos
    · exact filter_qe_nodup _ qe_nodup
    · intro x hx
      exact ((mem_filter_qe _ _ x).1 hx).1
  | WITNESS_NEAREST t m =>
    have hc : t.data.contains ',' = false := by
      simp [fracModeOp] at hmode
      simpa using hmode
    by_cases hm : m = "ABS_DIFF"
    · subst hm
      simp only [execOp, hge, hc, ne_eq, not_true_eq_false, Bool.false_eq_true, false_or,
        if_false, reduceIte] at h
      cases hp : parse_frac t with
      | none => simp only [hp] at h; simp at h
      | some tf =>
        simp only [hp] at h
        cases hw : witness_nearest s.state_set tf with
        | none => simp only [hw] at h; simp at h
        | some w =>
          simp only [hw, Option.some_inj] at h
          subst h
          exact ⟨hbf, rfl, hsort, hnd, hsub, hdig⟩
    · simp only [execOp] at h
      rw [if_pos hm] at h
      simp at h

/-- `InvFrac` does not mention the chain accumulator. -/
theorem invFrac_chain {s : St} (c : Digest) (h : InvFrac s) :
    InvFrac { s with chain := c } := by
  obtain ⟨a, b, c', d, e, f⟩ := h
  exact ⟨a, b, c', d, e, f⟩

/-- Invariant preservation along a whole run. -/
theorem invFrac_runLoop :
    ∀ (ops : List Op) (idx : Nat) (s : St) (recs : List StepRec) (fin : St),
      (∀ op ∈ ops, fracModeOp op = true) → InvFrac s →
      runLoop idx s ops = some (recs, fin) → InvFrac fin := by
  intro ops
  induction ops with
  | nil =>
    intro idx s recs fin _ hInv h
    simp only [runLoop, Option.some_inj, Prod.mk.injEq] at h
    rw [← h.2]
    exact hInv
  | cons op rest ih =>
    intro idx s recs fin hmode hInv h
    simp only [runLoop] at h
    cases hE : execStep idx s op with
    | none => simp only [hE] at h; exact Option.noConfusion h
    | some p =>
      simp only [hE] at h
      cases hR : runLoop (idx + 1) p.1 rest with
      | none => simp only [hR] at h; exact Option.noConfusion h
      | some q =>
        simp only [hR, Option.some_inj, Prod.mk.injEq] at h
        obtain ⟨s1, hO, hs1, _, _, _⟩ := execStep_some hE
        have hInv1 : InvFrac p.1 := by
          rw [hs1]
          exact invFrac_chain _ (invFrac_execOp hInv (hmode op (by simp)) hO)
        rw [← h.2]
        exact ih (idx + 1) p.1 q.1 q.2 (fun o ho => hmode o (by simp [ho])) hInv1
          (by rw [hR])

/-! ## Executor/verifier simulation (replay correctness) -/

/-- Whenever the executor's transition succeeds — and, for `SET_BIT`, leaves a
non-empty candidate set — the verifier's replay of the same op from the same
state takes exactly the same transition. -/
theorem vApply_sim {s : St} {op : Op} {s1 : St}
    (hO : execOp s op = some s1)
    (hne : setBitNonEmpty op s1) :
    vApply s op = VOut.next s1 := by
  unfold setBitNonEmpty at hne
  cases op with
  | SELECT_UNIVERSE u n =>
    simp only [execOp] at hO
    by_cases h1 : is_boolfun_name (ascii_upper u) = true
    · simp only [h1, Bool.not_true, Bool.false_eq_true, if_false, ite_false] at hO
      by_cases h2 : 1 <<< n > 64
      · simp only [h2, if_true, ite_true] at hO
        exact Option.noConfusion hO
      · simp only [h2, if_false, ite_false, Option.some_inj] at hO
        simp only [vApply, h1, Bool.not_true, Bool.false_eq_true, if_false, ite_false,
          h2, hO]
    · rw [Bool.not_eq_true] at h1
      simp only [h1, Bool.not_false, if_true, ite_true] at hO
      exact Option.noConfusion hO
  | FILTER_WEIGHT mn mx =>
    simp only [execOp] at hO
    by_cases h1 : s.is_boolfun = true
    · simp only [h1, Bool.not_true, Bool.false_eq_true, if_false, ite_false,
        Option.some_inj] at hO
      simp only [vApply, h1, Bool.not_true, Bool.false_eq_true, if_false, ite_false, hO]
    · rw [Bool.not_eq_true] at h1
      simp only [h1, Bool.not_false, if_true, ite_true] at hO
      exact Option.noConfusion hO
  | TOPK t k =>
    simp only [execOp] at hO
    by_cases h1 : s.is_boolfun = true
    · simp only [h1, Bool.not_true, Bool.false_eq_true, if_false, ite_false] at hO
      cases hp : parse_elem t with
      | none =>
        simp only [hp] at hO
        exact Option.noConfusion hO
      | some target =>
        simp only [hp] at hO
        by_cases h2 : target.n = s.boolfun_n
        · simp only [h2, ne_eq, not_true_eq_false, if_false, ite_false,
            Option.some_inj] at hO
          simp only [vApply, h1, Bool.not_true, Bool.false_eq_true, if_false, ite_false,
            hp, h2, ne_eq, not_true_eq_false, hO]
        · simp only [ne_eq, h2, not_false_eq_true, if_true, ite_true] at hO
          exact Option.noConfusion hO
    · rw [Bool.not_eq_true] at h1
      simp only [h1, Bool.not_false, if_true, ite_true] at hO
      exact Option.noConfusion hO
  | START_ELEM e =>
    simp only [execOp] at hO
    by_cases hc : e.data.contains ',' = true
    · simp only [hc, if_true, ite_true] at hO
      cases hparts : tri_parts e with
      | nil => simp only [hparts] at hO; exact Option.noConfusion hO
      | cons pa rest1 =>
        cases rest1 with
        | nil => simp only [hparts] at hO; exact Option.noConfusion hO
        | cons pb rest2 =>
          cases rest2 with
          | nil => simp only [hparts] at hO; exact Option.noConfusion hO
          | cons pc rest3 =>
            cases rest3 with
            | cons pd rest4 => simp only [hparts] at hO; exact Option.noConfusion hO
            | nil =>
              simp only [hparts] at hO
              cases hpa : parseInt? pa with
              | none => simp only [hpa] at hO; exact Option.noConfusion hO
              | some a =>
                cases hpb : parseInt? pb with
                | none => simp only [hpa, hpb] at hO; exact Option.noConfusion hO
                | some b =>
                  cases hpc : parseInt? pc with
                  | none => simp only [hpa, hpb, hpc] at hO; exact Option.noConfusion hO
                  | some c =>
                    simp only [hpa, hpb, hpc] at hO
                    cases htri : Tri.new a b c with
                    | none =>
                      simp only [htri] at hO
                      exact Option.noConfusion hO
                    | some tri =>
                      simp only [htri, Option.some_inj] at hO
                      simp only [vApply, hc, if_true, ite_true, hparts, hpa, hpb, hpc,
                        htri, hO]
    · simp only [Bool.not_eq_true] at hc
      simp only [hc, Bool.false_eq_true, if_false, ite_false] at hO
      cases hp : parse_frac e with
      | none =>
        simp only [hp] at hO
        exact Option.noConfusion hO
      | some f =>
        simp only [hp, Option.some_inj] at hO
        simp only [vApply, hc, Bool.false_eq_true, if_false, ite_false, hp, hO]
  | SET_BIT i b =>
    simp only [execOp, Option.some_inj] at hO
    have hne' : ¬ ((if s.is_ge = true then
        insSort canonLe ((insSort geomLe (ge_state.filter
          (fun t => (s.cst.set_bit i b).matches (sig7_geom t)))).map
            (fun t => Frac.mk t.a t.c))
      else filter_qe qe (s.cst.set_bit i b)) = []) := by
      intro hempty
      apply hne
      rw [← hO]
      exact hempty
    simp only [vApply, if_neg hne', hO]
  | WITNESS_NEAREST t m =>
    simp only [execOp] at hO
    by_cases hm : m = "ABS_DIFF"
    · subst hm
      simp only [ne_eq, not_true_eq_false, if_false, ite_false, reduceIte] at hO
      by_cases hcond : (s.is_ge = true ∨ t.data.contains ',' = true)
      · simp only [hcond, if_true, ite_true] at hO
        cases hparts : tri_parts t with
        | nil => simp only [hparts] at hO; exact Option.noConfusion hO
        | cons pa rest1 =>
          cases rest1 with
          | nil => simp only [hparts] at hO; exact Option.noConfusion hO
          | cons pb rest2 =>
            cases rest2 with
            | nil => simp only [hparts] at hO; exact Option.noConfusion hO
            | cons pc rest3 =>
              cases rest3 with
              | cons pd rest4 => simp only [hparts] at hO; exact Option.noConfusion hO
              | nil =>
                simp only [hparts] at hO
                cases hpa : parseInt? pa with
                | none => simp only [hpa] at hO; exact Option.noConfusion hO
                | some a =>
                  cases hpb : parseInt? pb with
                  | none => simp only [hpa, hpb] at hO; exact Option.noConfusion hO
                  | some b =>
                    cases hpc : parseInt? pc with
                    | none => simp only [hpa, hpb, hpc] at hO; exact Option.noConfusion hO
                    | some c =>
                      simp only [hpa, hpb, hpc] at hO
                      cases htri : Tri.new a b c with
                      | none =>
                        simp only [htri] at hO
                        exact Option.noConfusion hO
                      | some tri =>
                        simp only [htri] at hO
                        cases hw : witness_nearest s.state_set (Frac.mk a c) with
                        | none =>
                          simp only [hw] at hO
                          exact Option.noConfusion hO
                        | some w =>
                          simp only [hw, Option.some_inj] at hO
                          simp only [vApply, ne_eq, not_true_eq_false, if_false,
                            ite_false, reduceIte, hcond, if_true, ite_true, hparts,
                            hpa, hpb, hpc, Option.getD_some, htri, hw, hO]
      · simp only [hcond, if_false, ite_false] at hO
        cases hp : parse_frac t with
        | none =>
          simp only [hp] at hO
          exact Option.noConfusion hO
        | some tf =>
          simp only [hp] at hO
          cases hw : witness_nearest s.state_set tf with
          | none =>
            simp only [hw] at hO
            exact Option.noConfusion hO
          | some w =>
            simp only [hw, Option.some_inj] at hO
            simp only [vApply, ne_eq, not_true_eq_false, if_false, ite_false, reduceIte,
              hcond, hp, hw, hO]
    · rw [if_pos hm] at hO
      exact Option.noConfusion hO
  | RETURN_SET mi iw =>
    simp only [execOp, Option.some_inj] at hO
    simp only [vApply, hO]

/-- One-step simulation: the verifier accepts every record the executor emits
(under the `SET_BIT` non-emptiness side condition) and moves to the executor's
post-state, chain included. -/
theorem sim_step {idx : Nat} {s : St} {op : Op} {p : St × StepRec}
    (h : execStep idx s op = some p) (hg : strictOk op p.1 = true) :
    verifyStep s p.2 = VOut.next p.1 := by
  obtain ⟨s1, hO, hs1, hop, hpost, hsd⟩ := execStep_some h
  have hstate : p.1.state_set = s1.state_set := by rw [hs1]
  have hne1 : setBitNonEmpty op s1 := by
    unfold setBitNonEmpty
    cases op with
    | SET_BIT i b =>
      simp only [strictOk, Bool.not_eq_true'] at hg
      rw [hstate] at hg
      intro hnil
      rw [hnil] at hg
      simp at hg
    | SELECT_UNIVERSE u n => trivial
    | FILTER_WEIGHT mn mx => trivial
    | TOPK t k => trivial
    | START_ELEM e => trivial
    | WITNESS_NEAREST t m => trivial
    | RETURN_SET mi iw => trivial
  have hv : vApply s op = VOut.next s1 := vApply_sim hO hne1
  simp only [verifyStep, hop, hv, hpost, hsd]
  cases hb : s1.is_boolfun with
  | false =>
    cases hw : s1.witness with
    | none => simp [hb, hw, hs1]
    | some w => simp [hb, hw, hs1]
  | true =>
    cases hw : s1.witness_bf with
    | none => simp [hb, hw, hs1]
    | some w => simp [hb, hw, hs1]

/-- Run-level simulation: a strict run's transcript verifies, and the
verifier's replayed final state is the executor's. -/
theorem sim_run :
    ∀ (ops : List Op) (idx : Nat) (s : St) (recs : List StepRec) (fin : St),
      runLoopStrict idx s ops = some (recs, fin) →
      verifyLoop s recs = some true ∧ verifyRun s recs = some fin := by
  intro ops
  induction ops with
  | nil =>
    intro idx s recs fin h
    simp only [runLoopStrict, Option.some_inj, Prod.mk.injEq] at h
    rw [← h.1, ← h.2]
    exact ⟨rfl, rfl⟩
  | cons op rest ih =>
    intro idx s recs fin h
    simp only [runLoopStrict] at h
    cases hE : execStep idx s op with
    | none => simp only [hE] at h; exact Option.noConfusion h
    | some p =>
      simp only [hE] at h
      by_cases hg : strictOk op p.1 = true
      · rw [if_pos hg] at h
        cases hR : runLoopStrict (idx + 1) p.1 rest with
        | none => simp only [hR] at h; exact Option.noConfusion h
        | some q =>
          simp only [hR, Option.some_inj, Prod.mk.injEq] at h
          obtain ⟨hrecs, hfin⟩ := h
          obtain ⟨ihv, ihr⟩ := ih (idx + 1) p.1 q.1 q.2 (by rw [hR])
          have hsim := sim_step hE hg
          constructor
          · rw [← hrecs]
            simp only [verifyLoop, hsim]
            exact ihv
          · rw [← hrecs]
            simp only [verifyRun, hsim]
            rw [← hfin]
            exact ihr
      · rw [if_neg hg] at h
        exact Option.noConfusion h

/-- A strict run is in particular a run. -/
theorem runLoopStrict_runLoop :
    ∀ (ops : List Op) (idx : Nat) (s : St) (r : List StepRec × St),
      runLoopStrict idx s ops = some r → runLoop idx s ops = some r := by
  intro ops
  induction ops with
  | nil => intro idx s r h; exact h
  | cons op rest ih =>
    intro idx s r h
    simp only [runLoopStrict] at h
    simp only [runLoop]
    cases hE : execStep idx s op with
    | none => simp only [hE] at h; exact Option.noConfusion h
    | some p =>
      simp only [hE] at h ⊢
      by_cases hg : strictOk op p.1 = true
      · rw [if_pos hg] at h
        cases hR : runLoopStrict (idx + 1) p.1 rest with
        | none => simp only [hR] at h; exact Option.noConfusion h
        | some q =>
          simp only [hR] at h
          rw [ih (idx + 1) p.1 q (by rw [hR])]
          exact h
      · rw [if_neg hg] at h
        exact Option.noConfusion h

/-! ## The S1 scenario: signature bits, the filtered set, and the witness -/

/-- Bit 2 of `sig7` is exactly the `den ≤ 6` predicate. -/
theorem sig7_band4 (f : Frac) : sig7 f &&& 4 = (if f.den ≤ 6 then 4 else 0) := by
  unfold sig7
  by_cases h1 : f.num > 0 <;> by_cases h2 : f.den ≤ 6 <;>
    by_cases h3 : f.num % 2 = 0 <;> by_cases h4 : f.den % 3 = 0 <;>
      by_cases h5 : |f.num| < f.den <;> by_cases h6 : |f.num| ≤ 5 <;>
        (simp [h1, h2, h3, h4, h5, h6]; try decide)

/-- Bit 1 of `sig7` (`rat_int`) is set on every fraction. -/
theorem sig7_band2 (f : Frac) : sig7 f &&& 2 = 2 := by
  unfold sig7
  by_cases h1 : f.num > 0 <;> by_cases h2 : f.den ≤ 6 <;>
    by_cases h3 : f.num % 2 = 0 <;> by_cases h4 : f.den % 3 = 0 <;>
      by_cases h5 : |f.num| < f.den <;> by_cases h6 : |f.num| ≤ 5 <;>
        (simp [h1, h2, h3, h4, h5, h6]; try decide)

/-- The `SET_BIT i=2 b=1` constraint accepts exactly the `den ≤ 6` fractions. -/
theorem matches_c47_iff (f : Frac) :
    Constraint.matches c47 (sig7 f) = true ↔ f.den ≤ 6 := by
  show decide (sig7 f &&& c47.mask = (c47.value &&& c47.mask)) = true ↔ _
  rw [decide_eq_true_iff]
  show sig7 f &&& 4 = 4 &&& 4 ↔ _
  rw [sig7_band4]
  by_cases h : f.den ≤ 6 <;> simp [h]

/-- The `SET_BIT i=1 b=0` constraint accepts no fraction at all. -/
theorem matches_c20_false (f : Frac) :
    Constraint.matches c20 (sig7 f) = false := by
  show decide (sig7 f &&& c20.mask = (c20.value &&& c20.mask)) = false
  rw [decide_eq_false_iff_not]
  show ¬ sig7 f &&& 2 = 0 &&& 2
  rw [sig7_band2]
  decide

/-- `SET_BIT i=1 b=0` empties the rational candidate set. -/
theorem filter_qe_c20_empty : filter_qe qe c20 = [] := by
  have h : qe.filter (fun f => Constraint.matches c20 (sig7 f)) = [] := by
    rw [List.filter_eq_nil_iff]
    intro f _
    simp [matches_c20_false f]
  unfold filter_qe
  rw [h]
  rfl

theorem mem01_filter47 : Frac.mk 0 1 ∈ filter_qe qe c47 :=
  (mem_filter_qe qe c47 _).2 ⟨(mem_qe_iff _).2 (by decide), by decide⟩

theorem filter47_ne_nil : filter_qe qe c47 ≠ [] :=
  List.ne_nil_of_mem mem01_filter47

theorem filter47_length_pos : 0 < (filter_qe qe c47).length :=
  List.length_pos.2 filter47_ne_nil

/-- `0/1` strictly dominates every other `den ≤ 6` candidate at target
`7/200`: the rival distance numerator is at least `158/200·den` against
`7/200`. -/
theorem s1_strict :
    ∀ f ∈ filter_qe qe c47, f ≠ Frac.mk 0 1 →
      dist_lt (distance_num_den (Frac.mk 7 200) (Frac.mk 0 1))
              (distance_num_den (Frac.mk 7 200) f) = true := by
  intro f hf hne
  obtain ⟨hq, hm⟩ := (mem_filter_qe qe c47 f).1 hf
  obtain ⟨hd1, hd2, hn2, hg⟩ := (mem_qe_iff f).1 hq
  have hden6 : f.den ≤ 6 := (matches_c47_iff f).1 hm
  have hnum : f.num ≠ 0 := by
    intro h0
    apply hne
    have hd : f.den.natAbs = 1 := by
      rw [h0] at hg
      simpa using hg
    have : f.den = 1 := by omega
    cases f
    simp_all
  rw [dist_lt_true_iff]
  show |(7 : Int) * 1 - 200 * 0| * (200 * f.den) < |7 * f.den - 200 * f.num| * (200 * 1)
  have h7 : |(7 : Int) * 1 - 200 * 0| = 7 := by decide
  rw [h7]
  have h158 : 158 ≤ |7 * f.den - 200 * f.num| := by
    rcases abs_cases (7 * f.den - 200 * f.num) with ⟨he, _⟩ | ⟨he, _⟩ <;> rw [he] <;> omega
  have hd6 : f.den ≤ 6 := hden6
  nlinarith [h158, hd1, hd6]

/-- The S1 `WITNESS_NEAREST` returns `0/1`. -/
theorem s1_wn :
    witness_nearest (filter_qe qe c47) (Frac.mk 7 200) = some (Frac.mk 0 1) :=
  witness_nearest_unique (by decide)
    (fun f hf => qe_den_pos f ((mem_filter_qe qe c47 f).1 hf).1)
    mem01_filter47 s1_strict

/-- The fraction-mode `WITNESS_NEAREST` transition, given the parsed target
and the scan result. -/
theorem execOp_wn_qe {s : St} {t : String} {tf w : Frac}
    (hge : s.is_ge = false) (hc : t.data.contains ',' = false)
    (hp : parse_frac t = some tf)
    (hw : witness_nearest s.state_set tf = some w) :
    execOp s (Op.WITNESS_NEAREST t ("ABS_DIFF")) = some { s with witness := some w } := by
  simp only [execOp, hge, hc, ne_eq, not_true_eq_false, Bool.false_eq_true, false_or,
    if_false, reduceIte, hp, hw]

/-- One strict loop step, assembled from its three premises. -/
theorem runLoopStrict_cons {idx : Nat} {s : St} {op : Op} {rest : List Op}
    {s1 : St} {rec : StepRec} {recs : List StepRec} {fin : St}
    (h1 : execStep idx s op = some (s1, rec)) (h2 : strictOk op s1 = true)
    (h3 : runLoopStrict (idx + 1) s1 rest = some (recs, fin)) :
    runLoopStrict idx s (op :: rest) = some (rec :: recs, fin) := by
  unfold runLoopStrict
  rw [h1]
  show (if strictOk op s1 = true then
          match runLoopStrict (idx + 1) s1 rest with
          | none => none
          | some (recs, fin) => some (rec :: recs, fin)
        else none) = some (rec :: recs, fin)
  rw [h2, if_pos rfl, h3]

/-- One plain loop step, assembled from its two premises. -/
theorem runLoop_cons {idx : Nat} {s : St} {op : Op} {rest : List Op}
    {s1 : St} {rec : StepRec} {recs : List StepRec} {fin : St}
    (h1 : execStep idx s op = some (s1, rec))
    (h3 : runLoop (idx + 1) s1 rest = some (recs, fin)) :
    runLoop idx s (op :: rest) = some (rec :: recs, fin) := by
  unfold runLoop
  rw [h1]
  show (match runLoop (idx + 1) s1 rest with
        | none => none
        | some (recs, fin) => some (rec :: recs, fin)) = some (rec :: recs, fin)
  rw [h3]

/-- `execStep` in the fraction mode, decomposed on abstract states. -/
theorem execStep_frac_eq (idx : Nat) (s : St) (op : Op) (s1 : St)
    (h : execOp s op = some s1) (hbf : s.is_boolfun = false) (hbf1 : s1.is_boolfun = false)
    (hpre : ¬(idx = 0 ∧ s.state_set = [])) :
    execStep idx s op = some ({ s1 with chain := step_digest s.chain op s1.set_digest },
      { step := idx, op := op,
        pre := { set_digest := some s.set_digest, count := s.state_set.length,
                 constraint_mask := s.cst.mask, constraint_value := s.cst.value },
        post := { set_digest := some s1.set_digest, count := s1.state_set.length,
                  witness := s1.witness.map frac_to_string },
        step_digest := step_digest s.chain op s1.set_digest }) := by
  unfold execStep
  rw [h]
  show some (_, _) = _
  rw [hbf, hbf1]
  simp only [Bool.false_eq_true, Bool.not_false, false_and, false_or, true_and, if_false,
    if_true, eq_self_iff_true]
  rw [if_neg hpre]

/-- `run_trace_and_write`, assembled from the loop and the verifier verdict. -/
theorem run_tw_eq (ops : List Op) (recs : List StepRec) (fin : St) (ok : Bool)
    (h1 : runLoop 0 initSt ops = some (recs, fin))
    (h2 : verify_trace_ndjson recs = some ok) :
    run_trace_and_write ops =
      some ({ valid := ok,
              final_count := if fin.is_boolfun then fin.boolfun_set.length
                             else fin.state_set.length,
              witness := if fin.is_boolfun then fin.witness_bf.map boolfun_to_string
                         else fin.witness.map frac_to_string }, recs) := by
  unfold run_trace_and_write
  rw [h1]
  show (match verify_trace_ndjson recs with
        | none => none
        | some ok =>
          some (({ valid := ok,
                   final_count := if fin.is_boolfun then fin.boolfun_set.length
                                  else fin.state_set.length,
                   witness := if fin.is_boolfun then fin.witness_bf.map boolfun_to_string
                              else fin.witness.map frac_to_string } : ExecutionResult), recs)) =
    some (({ valid := ok,
             final_count := if fin.is_boolfun then fin.boolfun_set.length
                            else fin.state_set.length,
             witness := if fin.is_boolfun then fin.witness_bf.map boolfun_to_string
                        else fin.witness.map frac_to_string } : ExecutionResult), recs)
  rw [h2]

theorem s1exec1 : execOp initSt s1op1 =
    some { initSt with is_ge := false, cst := Constraint.empty, state_set := qe,
                       set_digest := canonical_set_digest qe,
                       witness := some (Frac.mk 7 200) } := by
  have hc : (("7/200" : String).data.contains ',') = false := rfl
  have hp : parse_frac ("7/200") = some (Frac.mk 7 200) := rfl
  simp only [execOp, s1op1, hc, Bool.false_eq_true, if_false, reduceIte, hp]

theorem s1step1 : execStep 0 initSt s1op1 = some (s1st1, s1rec1) := by
  simp only [execStep, s1exec1]
  simp [s1st1, s1rec1, initSt, frac_to_string, Constraint.empty]

theorem s1exec2 : execOp s1st1 (Op.SET_BIT 2 1) =
    some { s1st1 with cst := c47, state_set := filter_qe qe c47,
                      set_digest := canonical_set_digest (filter_qe qe c47) } := by
  have h1 : s1st1.is_ge = false := rfl
  have h2 : Constraint.set_bit s1st1.cst 2 1 = c47 := rfl
  simp only [execOp, h1, h2, Bool.false_eq_true, if_false, reduceIte]

theorem s1step2 : execStep 1 s1st1 (Op.SET_BIT 2 1) = some (s1st2, s1rec2) := by
  simp only [execStep, s1exec2]
  simp [s1st2, s1rec2, s1st1, initSt, c47, frac_to_string, Constraint.empty]

theorem s1ok2 : strictOk (Op.SET_BIT 2 1) s1st2 = true := by
  show (!(filter_qe qe c47).isEmpty) = true
  cases h : filter_qe qe c47 with
  | nil => exact absurd h filter47_ne_nil
  | cons a l => rfl

theorem s1exec3 : execOp s1st2 s1op3 =
    some { s1st2 with witness := some (Frac.mk 0 1) } := by
  have h1 : s1st2.is_ge = false := rfl
  have h2 : (("7/200" : String).data.contains ',') = false := rfl
  have h3 : witness_nearest s1st2.state_set (Frac.mk 7 200) = some (Frac.mk 0 1) := s1_wn
  exact execOp_wn_qe h1 h2 rfl h3

theorem s1step3 : execStep 2 s1st2 s1op3 = some (s1st3, s1rec3) := by
  have h := execStep_frac_eq 2 s1st2 s1op3 ({ s1st2 with witness := some (Frac.mk 0 1) })
    s1exec3 rfl rfl (by intro hx; exact absurd hx.1 (by decide))
  rw [h]
  dsimp only
  rw [show s1st2.state_set = filter_qe qe c47 from rfl,
      show s1st2.set_digest = canonical_set_digest (filter_qe qe c47) from rfl,
      show s1st2.cst = c47 from rfl]
  rfl

theorem s1exec4 : execOp s1st3 s1op4 = some s1st3 := rfl

theorem s1step4 : execStep 3 s1st3 s1op4 = some (s1st4, s1rec4) := by
  simp only [execStep, s1exec4]
  simp [s1st4, s1rec4, s1st3, s1st2, s1st1, initSt, c47, frac_to_string, Constraint.empty,
    s1op4]

/-- The S1 scenario executes to its four records and final state. -/
theorem s1_runStrict : runLoopStrict 0 initSt s1ops = some (s1recs, s1st4) := by
  show runLoopStrict 0 initSt [s1op1, Op.SET_BIT 2 1, s1op3, s1op4] = some (s1recs, s1st4)
  exact runLoopStrict_cons s1step1 rfl
    (runLoopStrict_cons s1step2 s1ok2
      (runLoopStrict_cons s1step3 rfl
        (runLoopStrict_cons s1step4 rfl rfl)))

/-- The S1 scenario end to end: the verifier accepts, the final count is the
size of the filtered set, and the rendered witness is `0/1`. -/
theorem s1_result : run_trace_and_write s1ops = some (s1res, s1recs) := by
  have hr := runLoopStrict_runLoop s1ops 0 initSt _ s1_runStrict
  have hv := (sim_run s1ops 0 initSt s1recs s1st4 s1_runStrict).1
  have h := run_tw_eq s1ops s1recs s1st4 true hr hv
  rw [h]
  rw [show s1st4.is_boolfun = false from rfl]
  simp only [Bool.false_eq_true, if_false]
  rw [show s1st4.state_set = filter_qe qe c47 from rfl,
      show s1st4.witness = some (Frac.mk 0 1) from rfl]
  rfl

/-! ## The C2 scenario (a `SET_BIT` that empties the set) and the C9 scenario
(a redundant `SET_BIT`) -/

theorem c2exec2 : execOp s1st1 (Op.SET_BIT 1 0) =
    some { s1st1 with cst := c20, state_set := filter_qe qe c20,
                      set_digest := canonical_set_digest (filter_qe qe c20) } := by
  have h1 : s1st1.is_ge = false := rfl
  have h2 : Constraint.set_bit s1st1.cst 1 0 = c20 := rfl
  simp only [execOp, h1, h2, Bool.false_eq_true, if_false, reduceIte]

theorem c2step2 : execStep 1 s1st1 (Op.SET_BIT 1 0) = some (c2st2, c2rec2) := by
  simp only [execStep, c2exec2]
  simp [c2st2, c2rec2, s1st1, initSt, c20, frac_to_string, Constraint.empty]

theorem c2exec3 : execOp c2st2 (Op.RETURN_SET 5 true) = some c2st2 := rfl

theorem c2step3 : execStep 2 c2st2 (Op.RETURN_SET 5 true) = some (c2st3, c2rec3) := by
  simp only [execStep, c2exec3]
  simp [c2st3, c2rec3, c2st2, s1st1, initSt, c20, frac_to_string, Constraint.empty]

/-- The C2 scenario executes to completion: the emptying `SET_BIT` emits its
record and the run continues. -/
theorem c2_run : runLoop 0 initSt c2ops = some ([s1rec1, c2rec2, c2rec3], c2st3) := by
  show runLoop 0 initSt [s1op1, Op.SET_BIT 1 0, Op.RETURN_SET 5 true] =
    some ([s1rec1, c2rec2, c2rec3], c2st3)
  exact runLoop_cons s1step1 (runLoop_cons c2step2 (runLoop_cons c2step3 rfl))

theorem c9exec3 : execOp s1st2 (Op.SET_BIT 2 1) =
    some { s1st2 with cst := c47, state_set := filter_qe qe c47,
                      set_digest := canonical_set_digest (filter_qe qe c47) } := by
  have h1 : s1st2.is_ge = false := rfl
  have h2 : Constraint.set_bit s1st2.cst 2 1 = c47 := rfl
  simp only [execOp, h1, h2, Bool.false_eq_true, if_false, reduceIte]

theorem c9step3 : execStep 2 s1st2 (Op.SET_BIT 2 1) = some (c9st3, c9rec3) := by
  simp only [execStep, c9exec3]
  simp [c9st3, c9rec3, s1st2, s1st1, initSt, c47, frac_to_string, Constraint.empty]

/-- The C9 scenario: a record is emitted for the redundant second `SET_BIT`. -/
theorem c9_run : runLoop 0 initSt c9ops = some ([s1rec1, s1rec2, c9rec3], c9st3) := by
  show runLoop 0 initSt [s1op1, Op.SET_BIT 2 1, Op.SET_BIT 2 1] =
    some ([s1rec1, s1rec2, c9rec3], c9st3)
  exact runLoop_cons s1step1 (runLoop_cons s1step2 (runLoop_cons c9step3 rfl))

/-! ## The triangle path of `START_ELEM` (duplicate `a/c` fractions) -/

theorem ge_state_eq : ge_state = insSort geomLe geRaw := rfl

theorem c5exec : execOp initSt (Op.START_ELEM ("1,1,1")) = some c5st := by
  have hc : (("1,1,1" : String).data.contains ',') = true := rfl
  have ht : tri_parts ("1,1,1") = [['1'], ['1'], ['1']] := rfl
  have hp1 : parseInt? (['1']) = some 1 := rfl
  have htri : Tri.new 1 1 1 = some (Tri.mk 1 1 1) := rfl
  simp only [execOp, hc, if_true, ht, hp1, htri, c5st, c5set, initSt]

theorem c5st_state : c5st.state_set = c5set := by
  dsimp only [c5st]

set_option maxRecDepth 10000 in
theorem geRaw_count : 2 ≤ (geRaw.map (fun t => Frac.mk t.a t.c)).count (Frac.mk 3 5) := by
  decide

theorem c5_dup : 2 ≤ c5st.state_set.count (Frac.mk 3 5) := by
  rw [c5st_state]
  show 2 ≤ (insSort canonLe ((insSort geomLe ge_state).map (fun t => Frac.mk t.a t.c))).count
    (Frac.mk 3 5)
  rw [(insSort_perm canonLe _).count_eq]
  rw [List.Perm.count_eq (List.Perm.map _ (insSort_perm geomLe ge_state))]
  rw [ge_state_eq]
  rw [List.Perm.count_eq (List.Perm.map _ (insSort_perm geomLe geRaw))]
  exact geRaw_count

theorem c5_not_nodup : ¬ c5st.state_set.Nodup := by
  intro h
  have h1 := List.nodup_iff_count_le_one.1 h (Frac.mk 3 5)
  have h2 := c5_dup
  omega

/-! ## The `TOPK` arm: frame and selection -/

theorem head?_take (m : Nat) (l : List α) :
    (l.take m).head? = if m = 0 then none else l.head? := by
  cases m <;> cases l <;> simp

theorem bfLe_refl (x : BoolFun) : bfLe x x = true := by
  have h : boolfun_canonical_cmp x x = Ordering.eq := by
    unfold boolfun_canonical_cmp
    rw [(compare_eq_iff_eq).2 (rfl : x.n = x.n), (compare_eq_iff_eq).2 (rfl : x.bits = x.bits)]
    rfl
  unfold bfLe
  rw [h]
  rfl

/-- The `TOPK` transition decomposed: the state is unchanged except for the
witness, which is the head of the sorted scored list cut to `k`. -/
theorem execOp_topk {s : St} {t : String} {k : Nat} {s1 : St}
    (h : execOp s (Op.TOPK t k) = some s1) :
    s.is_boolfun = true ∧ ∃ target, parse_elem t = some target ∧ target.n = s.boolfun_n ∧
      s1 = { s with witness_bf := topkWitness s.boolfun_set target k } := by
  unfold execOp at h
  by_cases hb : s.is_boolfun = true
  · refine ⟨hb, ?_⟩
    have hnot : (!s.is_boolfun) = false := by rw [hb]; rfl
    rw [hnot] at h
    simp only [Bool.false_eq_true, if_false] at h
    cases hp : parse_elem t with
    | none =>
      simp only [hp] at h
      exact Option.noConfusion h
    | some target =>
      simp only [hp] at h
      by_cases hn : target.n = s.boolfun_n
      · refine ⟨target, rfl, hn, ?_⟩
        rw [if_neg (not_not_intro hn)] at h
        rw [Option.some_inj] at h
        exact h.symm
      · rw [if_pos hn] at h
        exact Option.noConfusion h
  · rw [Bool.not_eq_true] at hb
    have hnot : (!s.is_boolfun) = true := by rw [hb]; rfl
    rw [hnot] at h
    simp only [eq_self_iff_true, if_true] at h
    exact Option.noConfusion h

/-- With `k ≥ 1` and a non-empty candidate set, the `TOPK` witness is the
minimum-Hamming candidate, ties broken by the canonical BoolFun order. -/
theorem topk_min {s : St} {t : String} {k : Nat} {s1 : St}
    (h : execOp s (Op.TOPK t k) = some s1) (hk : 1 ≤ k) (hne : s.boolfun_set ≠ []) :
    ∃ target w, parse_elem t = some target ∧ s1.witness_bf = some w ∧ w ∈ s.boolfun_set ∧
      ∀ f ∈ s.boolfun_set, w.hamming target < f.hamming target ∨
        (w.hamming target = f.hamming target ∧ bfLe w f = true) := by
  obtain ⟨hb, target, hp, hn, hs1⟩ := execOp_topk h
  set scored := s.boolfun_set.map (fun f => (f.hamming target, f)) with hsc
  set sorted := insSort scoredLe scored with hso
  have hlen : sorted.length = scored.length := length_insSort _ _
  have hscne : scored ≠ [] := by
    intro h0
    apply hne
    cases hL : s.boolfun_set with
    | nil => rfl
    | cons a l =>
      rw [hsc, hL] at h0
      exact List.noConfusion h0
  have hsone : sorted ≠ [] := by
    intro h0
    apply hscne
    rw [h0] at hlen
    exact (List.length_eq_zero.1 hlen.symm)
  obtain ⟨hd, hhd⟩ : ∃ hd, sorted.head? = some hd := by
    cases hso2 : sorted with
    | nil => exact absurd hso2 hsone
    | cons a l => exact ⟨a, rfl⟩
  have hmin0 : ¬ (min k sorted.length = 0) := by
    have h1 : sorted.length ≠ 0 := fun h0 => hsone (List.length_eq_zero.1 h0)
    omega
  have hwit : s1.witness_bf = some hd.2 := by
    rw [hs1]
    show topkWitness s.boolfun_set target k = some hd.2
    unfold topkWitness
    rw [← hsc, ← hso]
    rw [head?_take, if_neg hmin0, hhd]
    rfl
  have hdsorted : hd ∈ sorted := by
    cases hso2 : sorted with
    | nil => exact absurd hso2 hsone
    | cons a l =>
      rw [hso2] at hhd
      simp only [List.head?_cons, Option.some_inj] at hhd
      rw [← hhd]
      exact List.mem_cons_self _ _
  have hdmem : hd ∈ scored := (mem_insSort scoredLe scored hd).1 hdsorted
  obtain ⟨w, hwmem, hweq⟩ := List.mem_map.1 hdmem
  have hsorted : SortedBy scoredLe sorted :=
    insSort_sorted scoredLe (fun _ => True)
      (fun x y _ _ => scoredLe_total x y)
      (fun x y z _ _ _ h1 h2 => scoredLe_trans h1 h2)
      scored (fun x _ => trivial)
  refine ⟨target, w, hp, ?_, hwmem, ?_⟩
  · rw [hwit, ← hweq]
  · intro f hf
    have hfs : (f.hamming target, f) ∈ sorted :=
      (mem_insSort scoredLe scored _).2 (List.mem_map_of_mem _ hf)
    rcases sortedBy_head_le scoredLe hsorted hhd _ hfs with heq | hle
    · rw [← hweq] at heq
      have h2 : f = w := congrArg Prod.snd heq
      have h1 : f.hamming target = w.hamming target := by rw [h2]
      right
      exact ⟨h1.symm, by rw [h2]; exact bfLe_refl w⟩
    · have h1 := (scoredLe_iff _ _).1 hle
      rw [← hweq] at h1
      simpa using h1

/-- The `pre` snapshot and step index of a successful `execStep`. -/
theorem execStep_pre {idx : Nat} {s : St} {op : Op} {p : St × StepRec}
    (h : execStep idx s op = some p) :
    p.2.pre =
      { set_digest :=
          if idx = 0 ∧ ((s.is_boolfun ∧ s.boolfun_set = []) ∨
              (!s.is_boolfun ∧ s.state_set = [])) then none
          else some s.set_digest,
        count := if s.is_boolfun then s.boolfun_set.length else s.state_set.length,
        constraint_mask := s.cst.mask, constraint_value := s.cst.value } ∧
    p.2.step = idx := by
  unfold execStep at h
  cases hE : execOp s op with
  | none => rw [hE] at h; exact Option.noConfusion h
  | some s1 =>
    rw [hE] at h
    simp only [Option.some_inj] at h
    subst h
    exact ⟨rfl, rfl⟩

/-! # The claims -/

/-- C1: for every op list whose strict execution succeeds (every `SET_BIT`
leaves the candidate set non-empty), the verifier accepts the emitted
transcript (`Ok(true)`), replays to exactly the executor's final state — in
particular the same rolling chain hash — and the strict run is the run
`run_trace_and_write` performs. -/
theorem claim_C1 (ops : List Op) (recs : List StepRec) (fin : St)
    (h : runLoopStrict 0 initSt ops = some (recs, fin)) :
    verify_trace_ndjson recs = some true ∧ verifyRun initSt recs = some fin ∧
    runLoop 0 initSt ops = some (recs, fin) := by
  obtain ⟨hv, hr⟩ := sim_run ops 0 initSt recs fin h
  exact ⟨hv, hr, runLoopStrict_runLoop ops 0 initSt (recs, fin) h⟩

/-- C1 witness: the `SELECT_UNIVERSE BOOLFUN n=1` run, executed concretely. -/
theorem claim_C1_witness :
    verify_trace_ndjson c1run.1 = some true ∧ verifyRun initSt c1run.1 = some c1run.2 ∧
    runLoop 0 initSt c1ops = some (c1run.1, c1run.2) :=
  claim_C1 c1ops c1run.1 c1run.2 rfl

/-- C2 (amended): the executor never aborts on a `SET_BIT` — the step always
succeeds and emits its record even when the recomputed candidate set is empty;
it is the verifier that flags the empty set, returning INVALID (`Ok(false)`)
when replaying such a `SET_BIT` in the rational mode. -/
theorem claim_C2 (idx i b : Nat) (s : St) :
    (execStep idx s (Op.SET_BIT i b)).isSome = true ∧
    (s.is_ge = false → filter_qe qe (s.cst.set_bit i b) = [] →
      vApply s (Op.SET_BIT i b) = VOut.invalid) := by
  constructor
  · rfl
  · intro hge hemp
    unfold vApply
    rw [hge]
    simp only [Bool.false_eq_true, if_false]
    rw [hemp]
    rw [if_pos rfl]

/-- C2 witness: after `START_ELEM 7/200`, the op `SET_BIT i=1 b=0` empties the
set; the executor step still succeeds while the verifier replay is INVALID. -/
theorem claim_C2_witness :
    (execStep 1 s1st1 (Op.SET_BIT 1 0)).isSome = true ∧
    vApply s1st1 (Op.SET_BIT 1 0) = VOut.invalid := by
  have h := claim_C2 1 1 0 s1st1
  refine ⟨h.1, h.2 rfl ?_⟩
  show filter_qe qe c20 = []
  exact filter_qe_c20_empty

/-- C2 counterexample: the run `[START_ELEM 7/200, SET_BIT i=1 b=0,
RETURN_SET]` executes to completion with a record for the emptying `SET_BIT`
and for the op after it, refuting "the transcript ends at the failing step". -/
theorem claim_C2_counterexample :
    runLoop 0 initSt c2ops = some ([s1rec1, c2rec2, c2rec3], c2st3) ∧
    c2rec2.op = Op.SET_BIT 1 0 ∧ c2st2.state_set = [] ∧
    c2rec3.op = Op.RETURN_SET 5 true := by
  refine ⟨c2_run, rfl, ?_, rfl⟩
  show filter_qe qe c20 = []
  exact filter_qe_c20_empty

/-- C3 (amended): `SELECT_UNIVERSE` only switches to the BoolFun universe.  An
accepted spelling (with `2^n ≤ 64`) resets the constraint, rebuilds the full
BoolFun candidate set and clears the witnesses; *any* other universe name —
including the Rational and Triangle universes the spec lists — is a fatal
error, as is an accepted name with `2^n > 64`. -/
theorem claim_C3 (s : St) (u : String) (n : Nat) :
    execOp s (Op.SELECT_UNIVERSE u n) =
      (if is_boolfun_name (ascii_upper u) = true then
        (if 1 <<< n ≤ 64 then some (selSt s n) else none)
      else none) := by
  unfold execOp selSt
  dsimp only
  by_cases hu : is_boolfun_name (ascii_upper u) = true
  · rw [if_pos hu]
    have hnot : (!is_boolfun_name (ascii_upper u)) = false := by rw [hu]; rfl
    rw [hnot]
    simp only [Bool.false_eq_true, if_false]
    by_cases h64 : 1 <<< n ≤ 64
    · rw [if_pos h64, if_neg (by omega : ¬(1 <<< n > 64))]
    · rw [if_neg h64, if_pos (by omega : 1 <<< n > 64)]
  · rw [if_neg hu]
    rw [Bool.not_eq_true] at hu
    have hnot : (!is_boolfun_name (ascii_upper u)) = true := by rw [hu]; rfl
    rw [hnot]
    simp only [eq_self_iff_true, if_true]

/-- C3 counterexample: the executor rejects the Rational and Triangle
universe names (under both their spec spellings and their code spellings)
while accepting `BOOLFUN`. -/
theorem claim_C3_counterexample :
    execOp initSt (Op.SELECT_UNIVERSE ("RATIONAL") 0) = none ∧
    execOp initSt (Op.SELECT_UNIVERSE ("QE") 0) = none ∧
    execOp initSt (Op.SELECT_UNIVERSE ("TRIANGLE") 0) = none ∧
    execOp initSt (Op.SELECT_UNIVERSE ("GE") 0) = none ∧
    execOp initSt (Op.SELECT_UNIVERSE ("BOOLFUN") 1) ≠ none := by
  refine ⟨rfl, rfl, rfl, rfl, by decide⟩

/-- C4: `build_qe` returns exactly 48927 fractions, canonically sorted and
without duplicates. -/
theorem claim_C4 :
    build_qe.length = 48927 ∧ SortedBy canonLe build_qe ∧ build_qe.Nodup := by
  have h : qe = build_qe := by
    unfold qe
    rfl
  rw [← h]
  exact ⟨qe_length, qe_sorted, qe_nodup⟩

/-- C5 (amended): in the rational mode (fraction `START_ELEM` and
`WITNESS_NEAREST`, `SET_BIT`, `RETURN_SET`) every executed op preserves the
invariant — candidate set a subset of the rational universe, canonically
sorted, duplicate-free, digest the Merkle root of its leaves — and the empty
set has the defined root `sha256("")`.  The triangle path breaks the
invariant (see the counterexample). -/
theorem claim_C5 :
    (∀ (ops : List Op) (idx : Nat) (s : St) (recs : List StepRec) (fin : St),
      (∀ op ∈ ops, fracModeOp op = true) → InvFrac s →
      runLoop idx s ops = some (recs, fin) → InvFrac fin) ∧
    canonical_set_digest [] = Digest.empty :=
  ⟨invFrac_runLoop, rfl⟩

/-- C5 counterexample: `START_ELEM 1,1,1` (triangle path) succeeds but leaves
a candidate set with duplicates (the fraction `3/5` occurs more than once),
refuting "no duplicates after every executed op". -/
theorem claim_C5_counterexample :
    execOp initSt (Op.START_ELEM ("1,1,1")) = some c5st ∧ ¬ c5st.state_set.Nodup :=
  ⟨c5exec, c5_not_nodup⟩

/-- C6 (amended): on a non-empty candidate set `witness_nearest` always
returns a member of minimum exact distance (first conjunct); and when one
member strictly dominates all others the result is that member under any list
order (second conjunct).  The full tie-break is *not* total (see the
counterexample), so permutation invariance fails in general. -/
theorem claim_C6 :
    (∀ (cands : List Frac) (target w : Frac), 0 < target.den →
      (∀ f ∈ cands, 0 < f.den) → witness_nearest cands target = some w →
      w ∈ cands ∧
        ∀ f ∈ cands, distLE (distance_num_den target w) (distance_num_den target f)) ∧
    (∀ (cands : List Frac) (target w0 : Frac), 0 < target.den →
      (∀ f ∈ cands, 0 < f.den) → w0 ∈ cands →
      (∀ f ∈ cands, f ≠ w0 →
        dist_lt (distance_num_den target w0) (distance_num_den target f) = true) →
      witness_nearest cands target = some w0) :=
  ⟨fun _ _ _ ht hd hw => witness_nearest_min ht hd hw,
   fun _ _ _ ht hd hm hs => witness_nearest_unique ht hd hm hs⟩

/-- C6 counterexample: `1/2` and `2/3` are equidistant from `7/12` with
incomparable tie-break data, so the scan keeps whichever comes first:
permuting the candidate set changes the witness. -/
theorem claim_C6_counterexample :
    witness_nearest [Frac.mk 1 2, Frac.mk 2 3] (Frac.mk 7 12) = some (Frac.mk 1 2) ∧
    witness_nearest [Frac.mk 2 3, Frac.mk 1 2] (Frac.mk 7 12) = some (Frac.mk 2 3) ∧
    List.Perm [Frac.mk 1 2, Frac.mk 2 3] [Frac.mk 2 3, Frac.mk 1 2] ∧
    some (Frac.mk 1 2) ≠ some (Frac.mk 2 3) := by
  refine ⟨by decide, by decide, List.Perm.swap _ _ _, by decide⟩

/-- C7 (amended): the S1 scenario yields final count > 0 and a VALID verdict,
but the witness is `0/1` — the nearest den ≤ 6 rational to `7/200` — not the
`1/6` the spec expects. -/
theorem claim_C7 :
    run_trace_and_write s1ops = some (s1res, s1recs) ∧
    0 < s1res.final_count ∧ s1res.valid = true ∧
    s1res.witness = some (WitStr.fracStr 0 1) := by
  refine ⟨s1_result, ?_, rfl, rfl⟩
  show 0 < (filter_qe qe c47).length
  exact filter47_length_pos

/-- C7 counterexample: the witness the S1 run actually renders is `0/1`,
which is not `1/6`. -/
theorem claim_C7_counterexample :
    run_trace_and_write s1ops = some (s1res, s1recs) ∧
    s1res.witness = some (WitStr.fracStr 0 1) ∧
    WitStr.fracStr 0 1 ≠ WitStr.fracStr 1 6 :=
  ⟨s1_result, rfl, by decide⟩

/-- C8 (amended): a successful `TOPK` changes nothing but the witness (and the
chain): the record's counts agree, the set digests agree (and equal the live
digest) whenever the candidate set is non-empty, and the new witness is the
minimum-Hamming candidate with canonical tie-break when `k ≥ 1` and the set is
non-empty — but `k = 0` *clears* the witness instead of selecting one. -/
theorem claim_C8 {idx : Nat} {s : St} {t : String} {k : Nat} {p : St × StepRec}
    (h : execStep idx s (Op.TOPK t k) = some p) :
    (∃ wbf chain, p.1 = { s with witness_bf := wbf, chain := chain }) ∧
    p.2.post.count = p.2.pre.count ∧
    (s.boolfun_set ≠ [] → p.2.pre.set_digest = some s.set_digest ∧
      p.2.post.set_digest = some s.set_digest) ∧
    (1 ≤ k → s.boolfun_set ≠ [] →
      ∃ target w, parse_elem t = some target ∧ p.1.witness_bf = some w ∧
        w ∈ s.boolfun_set ∧
        ∀ f ∈ s.boolfun_set, w.hamming target < f.hamming target ∨
          (w.hamming target = f.hamming target ∧ bfLe w f = true)) ∧
    (k = 0 → p.1.witness_bf = none) := by
  obtain ⟨s1, hO, hp1, hop, hpost, hsd⟩ := execStep_some h
  obtain ⟨hprerec, hstep⟩ := execStep_pre h
  obtain ⟨hb, target, hpt, hn, hs1⟩ := execOp_topk hO
  have hb1 : s1.is_boolfun = true := by rw [hs1]; exact hb
  have hbs : s1.boolfun_set = s.boolfun_set := by rw [hs1]
  have hsd1 : s1.set_digest = s.set_digest := by rw [hs1]
  have hwb : s1.witness_bf = topkWitness s.boolfun_set target k := by rw [hs1]
  have hwbp : p.1.witness_bf = s1.witness_bf := by rw [hp1]
  refine ⟨?_, ?_, ?_, ?_, ?_⟩
  · refine ⟨topkWitness s.boolfun_set target k, step_digest s.chain (Op.TOPK t k) s1.set_digest, ?_⟩
    rw [hp1, hs1]
  · rw [hpost, hprerec]
    simp only [hb1, hb, hbs, if_true]
  · intro hne
    constructor
    · rw [hprerec]
      simp only [hb, hne, Bool.not_true, Bool.false_eq_true, false_and, and_false,
        true_and, and_true, false_or, or_false, if_false, and_self]
    · rw [hpost]
      rw [show ({ set_digest := some s1.set_digest,
                  count := if s1.is_boolfun then s1.boolfun_set.length
                           else s1.state_set.length,
                  witness := if s1.is_boolfun then s1.witness_bf.map boolfun_to_string
                             else s1.witness.map frac_to_string } : StepPost).set_digest
            = some s1.set_digest from rfl]
      rw [hsd1]
  · intro hk hne
    obtain ⟨target2, w, hp2, hw, hmem, hmin⟩ := topk_min hO hk hne
    exact ⟨target2, w, hp2, by rw [hwbp]; exact hw, hmem, hmin⟩
  · intro hk0
    subst hk0
    rw [hwbp, hwb]
    unfold topkWitness
    rw [Nat.zero_min, List.take_zero]
    rfl

/-- C8 witness: `TOPK bin:01 k=1` from the arity-1 BoolFun state, executed
concretely through `claim_C8`. -/
theorem claim_C8_witness :
    c8p.2.post.count = c8p.2.pre.count ∧
    (∃ target w, parse_elem ("bin:01") = some target ∧ c8p.1.witness_bf = some w ∧
      w ∈ c8st.boolfun_set ∧
      ∀ f ∈ c8st.boolfun_set, w.hamming target < f.hamming target ∨
        (w.hamming target = f.hamming target ∧ bfLe w f = true)) := by
  have h := claim_C8 (rfl : execStep 1 c8st (Op.TOPK ("bin:01") 1) = some c8p)
  exact ⟨h.2.1, h.2.2.2.1 (by decide) (by decide)⟩

/-- C8 counterexample: `TOPK` with `k = 0` on a non-empty candidate set clears
the witness rather than selecting the minimum-Hamming candidate. -/
theorem claim_C8_counterexample :
    execOp c8st (Op.TOPK ("bin:01") 0) = some c8st2 ∧ c8st2.witness_bf = none ∧
    c8st.boolfun_set ≠ [] := by
  refine ⟨rfl, by decide, by decide⟩

/-- C9 (amended): there is no elision pass: the transcript contains exactly
one record per submitted op, in order — the record ops *are* the op list. -/
theorem claim_C9 :
    ∀ (ops : List Op) (idx : Nat) (s : St) (recs : List StepRec) (fin : St),
      runLoop idx s ops = some (recs, fin) → recs.map StepRec.op = ops := by
  intro ops
  induction ops with
  | nil =>
    intro idx s recs fin h
    simp only [runLoop, Option.some_inj, Prod.mk.injEq] at h
    rw [← h.1]
    rfl
  | cons op rest ih =>
    intro idx s recs fin h
    simp only [runLoop] at h
    cases hE : execStep idx s op with
    | none => simp only [hE] at h; exact Option.noConfusion h
    | some p =>
      simp only [hE] at h
      cases hR : runLoop (idx + 1) p.1 rest with
      | none => simp only [hR] at h; exact Option.noConfusion h
      | some q =>
        simp only [hR, Option.some_inj, Prod.mk.injEq] at h
        obtain ⟨s1, hO, hs1, hop, hpost, hsd⟩ := execStep_some hE
        rw [← h.1, List.map_cons, hop, ih (idx + 1) p.1 q.1 q.2 (by rw [hR])]

/-- C9 witness: a one-op run whose transcript op list is the op list. -/
theorem claim_C9_witness : c9wrun.1.map StepRec.op = [Op.RETURN_SET 1 false] :=
  claim_C9 [Op.RETURN_SET 1 false] 0 initSt c9wrun.1 c9wrun.2 rfl

/-- C9 counterexample: a second, redundant `SET_BIT i=2 b=1` leaves the
candidate set and constraint unchanged, yet its record still appears in the
transcript — there is no elision. -/
theorem claim_C9_counterexample :
    runLoop 0 initSt c9ops = some ([s1rec1, s1rec2, c9rec3], c9st3) ∧
    c9rec3.op = Op.SET_BIT 2 1 ∧ c9st3.state_set = s1st2.state_set ∧
    c9st3.cst = s1st2.cst :=
  ⟨c9_run, rfl, rfl, rfl⟩

/-- C10: when the verifier's own replay carries no current witness, the
record's `post.witness` field is never compared: replacing it by anything at
all leaves the verifier's verdict for the record unchanged. -/
theorem claim_C10 {s s1 : St} {rec : StepRec}
    (h : vApply s rec.op = VOut.next s1)
    (hw : (if s1.is_boolfun = true then s1.witness_bf.isNone else s1.witness.isNone) = true) :
    ∀ w2, verifyStep s { rec with post := { rec.post with witness := w2 } }
      = verifyStep s rec := by
  intro w2
  have hop : ({ rec with post := { rec.post with witness := w2 } } : StepRec).op = rec.op := rfl
  unfold verifyStep
  rw [hop, h]
  dsimp only
  by_cases hb : s1.is_boolfun = true
  · have hwn : s1.witness_bf = none := by
      rw [hb] at hw
      simpa using hw
    simp [hb, hwn]
  · rw [Bool.not_eq_true] at hb
    have hwn : s1.witness = none := by
      rw [hb] at hw
      simpa using hw
    simp [hb, hwn]

/-- C10 witness: a `RETURN_SET` record at the initial state (no witness in the
replay) verifies identically with an arbitrary junk `post.witness`. -/
theorem claim_C10_witness :
    verifyStep initSt
        { c10rec with post := { c10rec.post with witness := some (WitStr.other ("junk")) } }
      = verifyStep initSt c10rec :=
  claim_C10 (rfl : vApply initSt c10rec.op = VOut.next initSt) rfl
    (some (WitStr.other ("junk")))

end SemT
